import Mathlib

/-!
Verification of the threaded Brown GCD / compiled CRT core
(`fmpz_mpoly/gcd_brown_threaded.c` of FLINT).

The C source is shallowly embedded below: `fmpz` values become `Int`,
straight-line CRT programs become lists of instructions, the per-call
scratch buffer of the runner becomes a total function `Nat → Int`
(writes past the used slots never happen for good programs, which the
theorems make precise).  Loops of the source are embedded as
structurally recursive functions on an explicit fuel argument; each
call site passes the fuel value for which the source loop provably
never runs out (comments at the call sites).
-/

/-- Modelled from the spec: `fmpz_bits` from the big-integer library
    (out of scope per §1), the bit length of the absolute value.
    The value only selects the shape of the CRT tree. -/
def bitsAux : Nat → Nat → Nat
  | 0, _ => 0
  | fuel + 1, n => if n = 0 then 0 else bitsAux fuel (n / 2) + 1

/-- Modelled from the spec: bit length of an `fmpz`. -/
def fmpz_bits (x : Int) : Nat := bitsAux x.natAbs x.natAbs

/-- Extended Euclid on naturals, with fuel (fuel `> y` suffices):
    returns Bezout coefficients `(a, b)` with `x*a + y*b = gcd x y`. -/
def xgcdF : Nat → Nat → Nat → Int × Int
  | 0, _, _ => (0, 0)
  | fuel + 1, x, y =>
    if y = 0 then (1, 0)
    else
      let p := xgcdF fuel y (x % y)
      (p.2, p.1 - (x / y : Nat) * p.2)

/-- Modelled from the spec: `fmpz_invmod` from the big-integer library;
    it fails exactly when the operands are not coprime (§4.1: the inverse
    computation "fails if gcd(M_left, M_right) ≠ 1"); on success it
    returns a representative of the inverse of `g` modulo `h`. -/
def fmpz_invmod (g h : Int) : Option Int :=
  if Int.gcd g h = 1 then
    some ((g.sign * (xgcdF (h.natAbs + 1) g.natAbs h.natAbs).1) % h)
  else none

/-- Modelled from the spec: `fmpz_mods` from the big-integer library,
    the least-absolute-value residue; §4.2: "mods returns the residue in
    (−M/2, M/2]". -/
def fmpz_mods (a m : Int) : Int :=
  if (m.natAbs : Int) < 2 * (a % (m.natAbs : Int)) then
    a % (m.natAbs : Int) - (m.natAbs : Int)
  else a % (m.natAbs : Int)

/-- One instruction of the straight-line CRT program
    (`_fmpz_crt_prog_instr`): slot `a_idx` receives
    `B + idem*(C − B) mod modulus`, where `b_idx`/`c_idx` address a
    scratch slot when non-negative and input `−1−idx` when negative.
    `a_idx` is a machine integer in the source but carries the runner's
    assertion `a >= 0`, so it is embedded as `Nat`. -/
structure CrtInstr where
  a_idx : Nat
  b_idx : Int
  c_idx : Int
  idem : Int
  modulus : Int
deriving Repr, DecidableEq, Inhabited

/-- The compiled CRT program (`fmpz_crt_struct`).  The separate `length`
    field of the source always equals `prog.length` (instructions past
    `length` are cleared on truncation), and `alloc` is memory management
    only, so neither is carried. -/
structure fmpz_crt_struct where
  prog : List CrtInstr
  localsize : Nat
  temp1loc : Nat
  temp2loc : Nat
  good : Bool
deriving Repr, DecidableEq

/-- `fmpz_crt_init`. -/
def fmpz_crt_init : fmpz_crt_struct :=
  { prog := [], localsize := 1, temp1loc := 0, temp2loc := 0, good := false }

/-- Sum of the `degree` fields over positions `[start, stop)` of the
    permutation array, as accumulated by the two `for` loops at the top
    of `_push_prog`. -/
def sumDeg (deg : Nat → Nat) (start stop : Nat) : Nat :=
  ((List.range' start (stop - start)).map deg).sum

/-- The rebalancing `while` loop of `_push_prog`:
    `while (lefttot < righttot && mid + 1 < stop && deg mid < righttot - lefttot)`
    move `perm[mid]` to the left side.  Fuel: each iteration requires
    `mid + 1 < stop` and increments `mid`, so fuel `stop − mid` never
    runs out; the fuel-exhausted branch is unreachable. -/
def crt_balance (deg : Nat → Nat) : Nat → Nat → Nat → Nat → Nat → Nat
  | 0, _, _, mid, _ => mid
  | fuel + 1, lefttot, righttot, mid, stop =>
    if lefttot < righttot ∧ mid + 1 < stop ∧ deg mid < righttot - lefttot then
      crt_balance deg fuel (lefttot + deg mid) (righttot - deg mid) (mid + 1) stop
    else mid

/-- The same loop as the spec (§4.1) states it: "while the left total
    bits < right total bits AND perm[mid].bits < (right − left), move
    perm[mid] to the left side and advance mid" — without the source's
    `mid + 1 < stop` guard.  Stated for comparison with `crt_balance`. -/
def crt_balance_spec (deg : Nat → Nat) : Nat → Nat → Nat → Nat → Nat
  | 0, _, _, mid => mid
  | fuel + 1, lefttot, righttot, mid =>
    if lefttot < righttot ∧ deg mid < righttot - lefttot then
      crt_balance_spec deg fuel (lefttot + deg mid) (righttot - deg mid) (mid + 1)
    else mid

/-- Index component of a permutation entry (`perm[k].idx`). -/
def pidxD (perm : List (Nat × Nat)) (k : Nat) : Nat := (perm.getD k (0, 0)).1

/-- Degree component of a permutation entry (`perm[k].degree`). -/
def pdegD (perm : List (Nat × Nat)) (k : Nat) : Nat := (perm.getD k (0, 0)).2

/-- Tail of `_push_prog` once both children are resolved: the
    `fmpz_is_zero` guard on the child moduli, the `fmpz_invmod` call
    (`P->good = P->good && fmpz_invmod(...)`), and the emission of the
    combine instruction with `idem = leftmodulus·I` and
    `modulus = leftmodulus·rightmodulus`.  In the source, when
    `fmpz_invmod` fails its destination is left unspecified and `good`
    is cleared; the model uses `0` for the unspecified value. -/
def push_combine (ret_idx : Nat) (b_idx c_idx : Int)
    (leftmodulus rightmodulus : Int) (P2 : fmpz_crt_struct) :
    fmpz_crt_struct × Int :=
  if leftmodulus = 0 ∨ rightmodulus = 0 then ({ P2 with good := false }, -1)
  else
    let inv := match fmpz_invmod leftmodulus rightmodulus with
      | some v => (v, P2.good)
      | none => (0, false)
    let ins : CrtInstr :=
      { a_idx := ret_idx, b_idx := b_idx, c_idx := c_idx,
        idem := leftmodulus * inv.1, modulus := leftmodulus * rightmodulus }
    ({ P2 with prog := P2.prog ++ [ins], good := inv.2 }, (P2.prog.length : Int))

/-- `_push_prog`: combine all moduli in `[start, stop)`; returns the new
    program state and the index of the instruction computing the result
    (`−1` on failure, as in the source).  The early `return -1` paths of
    the source are mirrored with `Except`.
    Fuel: every recursive call strictly shrinks `stop − start`, so fuel
    `≥ stop − start` never runs out (the exhausted branch is
    unreachable from `fmpz_crt_precompute_p`). -/
def push_prog (moduli : List Int) (perm : List (Nat × Nat)) :
    Nat → fmpz_crt_struct → Nat → Nat → Nat → fmpz_crt_struct × Int
  | 0, P, _, _, _ => ({ P with good := false }, -1)
  | fuel + 1, P0, ret_idx, start, stop =>
    let mid0 := start + (stop - start) / 2
    let mid := crt_balance (pdegD perm) (stop - mid0)
                 (sumDeg (pdegD perm) start mid0) (sumDeg (pdegD perm) mid0 stop) mid0 stop
    let P := { P0 with localsize := max P0.localsize (1 + ret_idx) }
    let resL : Except (fmpz_crt_struct × Int) (fmpz_crt_struct × Int × Int) :=
      if start + 1 < mid then
        let pr := push_prog moduli perm fuel P (ret_idx + 1) start mid
        if pr.1.good = true then
          Except.ok (pr.1, ((ret_idx : Int) + 1, (pr.1.prog.getD pr.2.toNat default).modulus))
        else Except.error (pr.1, -1)
      else
        Except.ok (P, (-1 - (pidxD perm start : Int), moduli.getD (pidxD perm start) 0))
    match resL with
    | Except.error e => e
    | Except.ok (P1, b_idx, leftmodulus) =>
      let resR : Except (fmpz_crt_struct × Int) (fmpz_crt_struct × Int × Int) :=
        if mid + 1 < stop then
          let pr := push_prog moduli perm fuel P1 (ret_idx + 2) mid stop
          if pr.1.good = true then
            Except.ok (pr.1, ((ret_idx : Int) + 2, (pr.1.prog.getD pr.2.toNat default).modulus))
          else Except.error (pr.1, -1)
        else
          Except.ok (P1, (-1 - (pidxD perm mid : Int), moduli.getD (pidxD perm mid) 0))
      match resR with
      | Except.error e => e
      | Except.ok (P2, c_idx, rightmodulus) =>
        push_combine ret_idx b_idx c_idx leftmodulus rightmodulus P2

/-- The index/degree permutation built at the top of
    `fmpz_crt_precompute_p`.  The source sorts with `qsort`, whose order
    on equal degrees is unspecified; the model uses insertion sort by
    degree. -/
def precompute_perm (moduli : List Int) : List (Nat × Nat) :=
  ((List.range moduli.length).map
    (fun i => (i, fmpz_bits (moduli.getD i 0)))).insertionSort (fun x y => x.2 ≤ y.2)

/-- The program state after the compilation phase of
    `fmpz_crt_precompute_p`: for two or more moduli the `_push_prog`
    recursion from an empty program, for a single modulus the degenerate
    instruction `output[0] = input[0] + 0·(input[0] − input[0]) mod
    moduli[0]` with `good = (moduli[0] ≠ 0)`.
    Fuel for `push_prog`: the top call covers `[0, len)` and every
    recursive call shrinks the range, so `len` never runs out. -/
def precompute_raw (moduli : List Int) : fmpz_crt_struct :=
  if 1 < moduli.length then
    (push_prog moduli (precompute_perm moduli) moduli.length
      { prog := [], localsize := 1, temp1loc := 0, temp2loc := 0, good := true }
      0 0 moduli.length).1
  else
    { prog := [{ a_idx := 0, b_idx := -1, c_idx := -1, idem := 0,
                 modulus := moduli.getD 0 0 }],
      localsize := 1, temp1loc := 0, temp2loc := 0,
      good := decide (¬ moduli.getD 0 0 = 0) }

/-- The clearing step: `if (!P->good) _fmpz_crt_set_length(P, 0)`. -/
def precompute_cleared (moduli : List Int) : fmpz_crt_struct :=
  if (precompute_raw moduli).good = true then precompute_raw moduli
  else { precompute_raw moduli with prog := [] }

/-- `fmpz_crt_precompute_p`: compile, clear on failure, then reserve the
    two temporary slots (`temp1loc = localsize++`, `temp2loc =
    localsize++`).  The returned `int` of the source is the final `good`
    field. -/
def fmpz_crt_precompute_p (moduli : List Int) : fmpz_crt_struct :=
  { precompute_cleared moduli with
    temp1loc := (precompute_cleared moduli).localsize,
    temp2loc := (precompute_cleared moduli).localsize + 1,
    localsize := (precompute_cleared moduli).localsize + 2 }

/-- Operand fetch of the runner:
    `B = b < 0 ? inputs[-b-1] : outputs + b`. -/
def instr_read (inputs : Nat → Int) (outputs : Nat → Int) (idx : Int) : Int :=
  if idx < 0 then inputs (-idx - 1).toNat else outputs idx.toNat

/-- Store into one scratch slot. -/
def scratch_write (S : Nat → Int) (i : Nat) (v : Int) : Nat → Int :=
  fun j => if j = i then v else S j

/-- One instruction of `_fmpz_crt_run_p`, with the source's exact
    sequence of stores through the two temporaries:
    `t1 ← B − C; t2 ← idem·t1; t1 ← B − t2; A ← t1 mods M`. -/
def crt_run_instr (t1loc t2loc : Nat) (inputs : Nat → Int)
    (outputs : Nat → Int) (ins : CrtInstr) : Nat → Int :=
  let o1 := scratch_write outputs t1loc
              (instr_read inputs outputs ins.b_idx - instr_read inputs outputs ins.c_idx)
  let o2 := scratch_write o1 t2loc (ins.idem * o1 t1loc)
  let o3 := scratch_write o2 t1loc (instr_read inputs o2 ins.b_idx - o2 t2loc)
  scratch_write o3 ins.a_idx (fmpz_mods (o3 t1loc) ins.modulus)

/-- `_fmpz_crt_run_p`: execute the program on the caller's scratch. -/
def fmpz_crt_run_p (P : fmpz_crt_struct) (inputs : Nat → Int)
    (outputs : Nat → Int) : Nat → Int :=
  P.prog.foldl (crt_run_instr P.temp1loc P.temp2loc inputs) outputs

/-! ### The post-join divisibility check of `fmpz_mpolyu_gcd_brown_threaded` -/

/-- Outcome of the control step after a join: either loop back to
    `compute_split` with a (possibly enlarged) bound, or stop with
    success. -/
inductive GcdLoopStep where
  | success : GcdLoopStep
  | again : Int → GcdLoopStep
deriving Repr, DecidableEq

/-- The divisibility check:
    `ans ← ans·gnm; anm ← anm·gns; bns ← bns·gnm; bnm ← bnm·gns;`
    swap `(ans, anm)` if `ans > anm`, swap `(bns, bnm)` if `bns > bnm`,
    double `ans` and `bns`, and require both to be `< modulus`.
    On entry `gnm/gns` are `Gmax/Gsum`, `anm/ans` are `Abarmax/Abarsum`,
    `bnm/bns` are `Bbarmax/Bbarsum`. -/
def gcd_divisibility_check (gnm gns anm ans bnm bns modulus : Int) : Bool :=
  let ans1 := ans * gnm
  let anm1 := anm * gns
  let bns1 := bns * gnm
  let bnm1 := bnm * gns
  let pa := if anm1 < ans1 then (anm1, ans1) else (ans1, anm1)
  let pb := if bnm1 < bns1 then (bnm1, bns1) else (bns1, bnm1)
  decide (pa.1 + pa.1 < modulus ∧ pb.1 + pb.1 < modulus)

/-- The loop tail of `fmpz_mpolyu_gcd_brown_threaded` after the heights
    are aggregated (lines 1249-1273): if the modulus has not yet passed
    the bound, loop again with the same bound; otherwise run the
    divisibility check; on failure set
    `bound ← modulus · 2^(2·FLINT_BITS)` and loop again. -/
def gcd_post_join (FLINT_BITSn : Nat)
    (gnm gns anm ans bnm bns modulus bound : Int) : GcdLoopStep :=
  if modulus ≤ bound then GcdLoopStep.again bound
  else if gcd_divisibility_check gnm gns anm ans bnm bns modulus then GcdLoopStep.success
  else GcdLoopStep.again (modulus * 2 ^ (2 * FLINT_BITSn))

/-! ### Zero-input short circuit of `fmpz_mpoly_gcd_brown_threaded` -/

/-- Modelled from the spec: the sparse polynomial container (§1, out of
    scope) is its canonical term list (exponent, coefficient);
    `fmpz_mpoly_is_zero` tests for the empty list. -/
def fmpz_mpoly_is_zero {α : Type} (A : List (α × Int)) : Bool := A.isEmpty

/-- Modelled from the spec: `fmpz_mpoly_neg` negates each coefficient. -/
def fmpz_mpoly_neg {α : Type} (A : List (α × Int)) : List (α × Int) :=
  A.map (fun t => (t.1, -t.2))

/-- Modelled from the spec: the leading coefficient `A->coeffs + 0`
    (0 for the zero polynomial). -/
def fmpz_mpoly_leadcoeff {α : Type} (A : List (α × Int)) : Int :=
  ((A.head?).map Prod.snd).getD 0

/-- `fmpz_mpoly_gcd_brown_threaded`, lines 1349-1381: the zero-input
    short circuits.  Everything after them (packed-bits check,
    univariate dispatch, conversion and the modular engine) is the
    abstract `engine` parameter, which these paths never consult. -/
def fmpz_mpoly_gcd_brown_threaded {α : Type}
    (engine : List (α × Int) → List (α × Int) → Int × List (α × Int))
    (A B : List (α × Int)) : Int × List (α × Int) :=
  if fmpz_mpoly_is_zero A then
    if fmpz_mpoly_is_zero B then (1, [])
    else if fmpz_mpoly_leadcoeff B < 0 then (1, fmpz_mpoly_neg B)
    else (1, B)
  else if fmpz_mpoly_is_zero B then
    if fmpz_mpoly_leadcoeff A < 0 then (1, fmpz_mpoly_neg A)
    else (1, A)
  else engine A B

/-! ### Helper lemmas on `sumDeg` -/

theorem sumDeg_self (deg : Nat → Nat) (a : Nat) : sumDeg deg a a = 0 := by
  simp [sumDeg]

theorem sumDeg_step (deg : Nat → Nat) {a b : Nat} (h : a < b) :
    sumDeg deg a b = deg a + sumDeg deg (a + 1) b := by
  unfold sumDeg
  have hb : b - a = (b - (a + 1)) + 1 := by omega
  rw [hb, List.range'_succ, List.map_cons, List.sum_cons]

theorem crt_balance_eq_spec (deg : Nat → Nat) :
    ∀ fuel lefttot righttot mid stop, righttot = sumDeg deg mid stop → mid ≤ stop →
    crt_balance deg fuel lefttot righttot mid stop =
      crt_balance_spec deg fuel lefttot righttot mid := by
  intro fuel
  induction fuel with
  | zero => intro _ _ _ _ _ _; rfl
  | succ fuel ih =>
    intro lefttot righttot mid stop hsum hmid
    show (if lefttot < righttot ∧ mid + 1 < stop ∧ deg mid < righttot - lefttot then
            crt_balance deg fuel (lefttot + deg mid) (righttot - deg mid) (mid + 1) stop
          else mid) =
         (if lefttot < righttot ∧ deg mid < righttot - lefttot then
            crt_balance_spec deg fuel (lefttot + deg mid) (righttot - deg mid) (mid + 1)
          else mid)
    by_cases hc : lefttot < righttot ∧ mid + 1 < stop ∧ deg mid < righttot - lefttot
    · rw [if_pos hc, if_pos ⟨hc.1, hc.2.2⟩]
      refine ih _ _ _ _ ?_ hc.2.1.le
      have hstep : sumDeg deg mid stop = deg mid + sumDeg deg (mid + 1) stop :=
        sumDeg_step deg (by omega)
      omega
    · rw [if_neg hc]
      by_cases hs : lefttot < righttot ∧ deg mid < righttot - lefttot
      · exfalso
        rcases Nat.lt_or_ge (mid + 1) stop with hlt | hge
        · exact hc ⟨hs.1, hlt, hs.2⟩
        · rcases Nat.eq_or_lt_of_le hmid with rfl | hmlt
          · rw [sumDeg_self] at hsum; omega
          · have hstop : mid + 1 = stop := by omega
            have : righttot = deg mid := by
              rw [hsum, sumDeg_step deg hmlt, hstop, sumDeg_self]
              omega
            omega
      · rw [if_neg hs]

/-! ### Claims C7, C2, C8, C10 -/

/-- C7: for every sorted range `[start, stop)` with at least two moduli,
    the CRT compiler's split point — `mid = start + (stop − start)/2`
    followed by the rebalancing loop of `_push_prog` — coincides with
    the split point described by the spec, whose loop condition is just
    "left total bits < right total bits AND perm[mid].bits < right − left"
    (the source's extra `mid + 1 < stop` guard never fires first). -/
theorem claim_C7_split_point (deg : Nat → Nat) (start stop : Nat) (h : start + 1 < stop) :
    crt_balance deg (stop - (start + (stop - start) / 2))
      (sumDeg deg start (start + (stop - start) / 2))
      (sumDeg deg (start + (stop - start) / 2) stop)
      (start + (stop - start) / 2) stop
    = crt_balance_spec deg (stop - (start + (stop - start) / 2))
      (sumDeg deg start (start + (stop - start) / 2))
      (sumDeg deg (start + (stop - start) / 2) stop)
      (start + (stop - start) / 2) := by
  exact crt_balance_eq_spec deg _ _ _ _ _ rfl (by omega)

/-- Witness for C7 at `deg = bits of [6,10,3,120]`, `[start, stop) = [0, 4)`. -/
theorem claim_C7_split_point_witness :
    crt_balance (fun k => [3, 4, 2, 7].getD k 0) (4 - (0 + (4 - 0) / 2))
      (sumDeg (fun k => [3, 4, 2, 7].getD k 0) 0 (0 + (4 - 0) / 2))
      (sumDeg (fun k => [3, 4, 2, 7].getD k 0) (0 + (4 - 0) / 2) 4)
      (0 + (4 - 0) / 2) 4
    = crt_balance_spec (fun k => [3, 4, 2, 7].getD k 0) (4 - (0 + (4 - 0) / 2))
      (sumDeg (fun k => [3, 4, 2, 7].getD k 0) 0 (0 + (4 - 0) / 2))
      (sumDeg (fun k => [3, 4, 2, 7].getD k 0) (0 + (4 - 0) / 2) 4)
      (0 + (4 - 0) / 2) :=
  claim_C7_split_point (fun k => [3, 4, 2, 7].getD k 0) 0 4 (by omega)

/-- C2: once the accumulated modulus exceeds the bound, the loop of
    `fmpz_mpolyu_gcd_brown_threaded` terminates successfully iff
    `2·min(Abarsum·Gmax, Abarmax·Gsum) < modulus` and
    `2·min(Bbarsum·Gmax, Bbarmax·Gsum) < modulus` (the source computes
    this by the swap-then-double sequence); when the check fails, the
    bound becomes `modulus · 2^(2·FLINT_BITS)` and the split-join loop
    repeats.  Here `gnm/gns/anm/ans/bnm/bns` hold
    `Gmax/Gsum/Abarmax/Abarsum/Bbarmax/Bbarsum`. -/
theorem claim_C2_divisibility_check (FLINT_BITSn : Nat)
    (gnm gns anm ans bnm bns modulus bound : Int) (h : bound < modulus) :
    (gcd_post_join FLINT_BITSn gnm gns anm ans bnm bns modulus bound = GcdLoopStep.success ↔
      (2 * min (ans * gnm) (anm * gns) < modulus ∧
       2 * min (bns * gnm) (bnm * gns) < modulus)) ∧
    (¬ (2 * min (ans * gnm) (anm * gns) < modulus ∧
        2 * min (bns * gnm) (bnm * gns) < modulus) →
      gcd_post_join FLINT_BITSn gnm gns anm ans bnm bns modulus bound =
        GcdLoopStep.again (modulus * 2 ^ (2 * FLINT_BITSn))) := by
  have hnb : ¬ modulus ≤ bound := not_le.mpr h
  have hcheck : gcd_divisibility_check gnm gns anm ans bnm bns modulus = true ↔
      (2 * min (ans * gnm) (anm * gns) < modulus ∧
       2 * min (bns * gnm) (bnm * gns) < modulus) := by
    unfold gcd_divisibility_check
    rcases lt_or_ge (anm * gns) (ans * gnm) with ha | ha <;>
      rcases lt_or_ge (bnm * gns) (bns * gnm) with hb | hb <;>
      simp only [if_pos, if_neg, ha, hb, not_lt, decide_eq_true_eq] <;>
      constructor <;> intro hx <;>
      constructor <;> omega
  constructor
  · unfold gcd_post_join
    rw [if_neg hnb]
    by_cases hck : gcd_divisibility_check gnm gns anm ans bnm bns modulus = true
    · rw [if_pos hck]
      simpa using hcheck.mp hck
    · rw [if_neg hck]
      simp only [reduceCtorEq, false_iff]
      intro hx
      exact hck (hcheck.mpr hx)
  · intro hfail
    unfold gcd_post_join
    rw [if_neg hnb, if_neg (fun hck => hfail (hcheck.mp hck))]

/-- Witness for C2 at `modulus = 100 > bound = 5` and concrete heights. -/
theorem claim_C2_divisibility_check_witness :
    (gcd_post_join 64 10 2 4 3 20 100 100 5 = GcdLoopStep.success ↔
      ((2 : Int) * min (3 * 10) (4 * 2) < 100 ∧
       (2 : Int) * min (100 * 10) (20 * 2) < 100)) ∧
    (¬ ((2 : Int) * min (3 * 10) (4 * 2) < 100 ∧
        (2 : Int) * min (100 * 10) (20 * 2) < 100) →
      gcd_post_join 64 10 2 4 3 20 100 100 5 =
        GcdLoopStep.again (100 * 2 ^ (2 * 64))) :=
  claim_C2_divisibility_check 64 10 2 4 3 20 100 100 5 (by omega)

/-- C8: the zero-input short circuits of `fmpz_mpoly_gcd_brown_threaded`:
    with both inputs zero the result is `(1, 0)`; with exactly one input
    zero the result is `1` together with that input normalised to a
    positive leading coefficient (negated when its leading coefficient
    is negative), and the modular `engine` is never consulted (the
    result is the same for every `engine`). -/
theorem claim_C8_zero_inputs {α : Type}
    (engine : List (α × Int) → List (α × Int) → Int × List (α × Int))
    (A B : List (α × Int)) :
    (A = [] → B = [] → fmpz_mpoly_gcd_brown_threaded engine A B = (1, [])) ∧
    (A = [] → 0 < fmpz_mpoly_leadcoeff B →
      fmpz_mpoly_gcd_brown_threaded engine A B = (1, B)) ∧
    (A = [] → fmpz_mpoly_leadcoeff B < 0 →
      fmpz_mpoly_gcd_brown_threaded engine A B = (1, fmpz_mpoly_neg B)) ∧
    (B = [] → 0 < fmpz_mpoly_leadcoeff A →
      fmpz_mpoly_gcd_brown_threaded engine A B = (1, A)) ∧
    (B = [] → fmpz_mpoly_leadcoeff A < 0 →
      fmpz_mpoly_gcd_brown_threaded engine A B = (1, fmpz_mpoly_neg A)) := by
  have hz : ∀ C : List (α × Int), C = [] → fmpz_mpoly_is_zero C = true := by
    intro C hC; rw [hC]; rfl
  have hnz : ∀ C : List (α × Int), fmpz_mpoly_leadcoeff C ≠ 0 →
      fmpz_mpoly_is_zero C = false := by
    intro C hC
    cases C with
    | nil => exact absurd rfl hC
    | cons t ts => rfl
  refine ⟨?_, ?_, ?_, ?_, ?_⟩
  · intro hA hB
    unfold fmpz_mpoly_gcd_brown_threaded
    rw [hz A hA, hz B hB]
    rfl
  · intro hA hB
    unfold fmpz_mpoly_gcd_brown_threaded
    rw [hz A hA, hnz B (by omega)]
    simp only [Bool.false_eq_true, if_false, if_true, if_neg (by omega : ¬ fmpz_mpoly_leadcoeff B < 0)]
  · intro hA hB
    unfold fmpz_mpoly_gcd_brown_threaded
    rw [hz A hA, hnz B (by omega)]
    simp only [Bool.false_eq_true, if_false, if_true, if_pos hB]
  · intro hB hA
    unfold fmpz_mpoly_gcd_brown_threaded
    rw [hz B hB, hnz A (by omega)]
    simp only [Bool.false_eq_true, if_false, if_true, if_neg (by omega : ¬ fmpz_mpoly_leadcoeff A < 0)]
  · intro hB hA
    unfold fmpz_mpoly_gcd_brown_threaded
    rw [hz B hB, hnz A (by omega)]
    simp only [Bool.false_eq_true, if_false, if_true, if_pos hA]

/-- Witness for C8, the spec's scenario E4: `A = 0`, `B = −7x` gives
    `G = 7x` for an arbitrary engine. -/
theorem claim_C8_zero_inputs_witness :
    fmpz_mpoly_gcd_brown_threaded (fun _ _ => ((0 : Int), ([] : List (Nat × Int))))
      [] [((1 : Nat), (-7 : Int))] = (1, [(1, 7)]) :=
  ((claim_C8_zero_inputs (fun _ _ => ((0 : Int), ([] : List (Nat × Int))))
      [] [((1 : Nat), (-7 : Int))]).2.2.1 rfl (by decide)).trans (by decide)

/-- Helper: the clearing step of `fmpz_crt_precompute_p` leaves an empty
    instruction list whenever the resulting `good` flag is false. -/
theorem precompute_clear_helper (P1 : fmpz_crt_struct)
    (h : (if P1.good = true then P1 else { P1 with prog := ([] : List CrtInstr) }).good = false) :
    (if P1.good = true then P1 else { P1 with prog := ([] : List CrtInstr) }).prog = [] := by
  by_cases hg : P1.good = true
  · rw [if_pos hg] at h
    rw [hg] at h
    cases h
  · rw [if_neg hg]

/-- C10: a CRT program of length 0 — as produced by `fmpz_crt_init`, or
    by a failing `fmpz_crt_precompute_p` — makes `_fmpz_crt_run_p`
    execute zero instructions: the scratch array is returned entirely
    unchanged. -/
theorem claim_C10_empty_run :
    (∀ inputs S : Nat → Int, fmpz_crt_run_p fmpz_crt_init inputs S = S) ∧
    (∀ (moduli : List Int) (inputs S : Nat → Int),
      (fmpz_crt_precompute_p moduli).good = false →
      fmpz_crt_run_p (fmpz_crt_precompute_p moduli) inputs S = S) ∧
    (∀ (P : fmpz_crt_struct) (inputs S : Nat → Int),
      P.prog = [] → fmpz_crt_run_p P inputs S = S) := by
  have hrun : ∀ (P : fmpz_crt_struct) (inputs S : Nat → Int),
      P.prog = [] → fmpz_crt_run_p P inputs S = S := by
    intro P inputs S hP
    unfold fmpz_crt_run_p
    rw [hP]
    rfl
  refine ⟨fun inputs S => hrun _ inputs S rfl, ?_, hrun⟩
  intro moduli inputs S hgood
  exact hrun _ inputs S (precompute_clear_helper _ hgood)

/-- Witness for C10: running the failed program for moduli `{6, 10}`
    leaves a concrete scratch function unchanged. -/
theorem claim_C10_empty_run_witness :
    fmpz_crt_run_p (fmpz_crt_precompute_p [6, 10]) (fun _ => 5) (fun (j : Nat) => (j : Int)) =
      (fun (j : Nat) => (j : Int)) :=
  claim_C10_empty_run.2.1 [6, 10] (fun _ => 5) (fun (j : Nat) => (j : Int)) (by decide)

/-! ### Arithmetic lemmas about `fmpz_mods` and `fmpz_invmod` -/

theorem fmpz_mods_modeq (a m : Int) : fmpz_mods a m ≡ a [ZMOD m] := by
  have hdvd : m ∣ (m.natAbs : Int) := (Int.dvd_natAbs).mpr dvd_rfl
  have base : (a % (m.natAbs : Int)) ≡ a [ZMOD m] := Int.emod_emod_of_dvd a hdvd
  unfold fmpz_mods
  split
  · refine Int.ModEq.trans ?_ base
    refine (Int.modEq_iff_dvd).mpr ?_
    have : a % (m.natAbs : Int) - (a % (m.natAbs : Int) - (m.natAbs : Int)) =
        (m.natAbs : Int) := by ring
    rw [this]
    exact hdvd
  · exact base

theorem fmpz_mods_bounds (a m : Int) (hm : m ≠ 0) :
    -((m.natAbs : Int)) < 2 * fmpz_mods a m ∧ 2 * fmpz_mods a m ≤ (m.natAbs : Int) := by
  have h0 : (0 : Int) < (m.natAbs : Int) := by exact_mod_cast Int.natAbs_pos.mpr hm
  have hge : 0 ≤ a % (m.natAbs : Int) := Int.emod_nonneg a (ne_of_gt h0)
  have hlt : a % (m.natAbs : Int) < (m.natAbs : Int) := Int.emod_lt_of_pos a h0
  unfold fmpz_mods
  split <;> omega

theorem xgcdF_bezout : ∀ (fuel x y : Nat), y < fuel →
    (x : Int) * (xgcdF fuel x y).1 + (y : Int) * (xgcdF fuel x y).2 = Nat.gcd x y := by
  intro fuel
  induction fuel with
  | zero => intro x y h; exact absurd h (Nat.not_lt_zero y)
  | succ fuel ih =>
    intro x y h
    by_cases hy : y = 0
    · subst hy
      simp [xgcdF]
    · have hylt : x % y < y := Nat.mod_lt x (Nat.pos_of_ne_zero hy)
      have hrec := ih y (x % y) (by omega)
      simp only [xgcdF, if_neg hy]
      have hmod : ((x % y : Nat) : Int) = (x : Int) - (y : Int) * ((x / y : Nat) : Int) := by
        have hx : ((x % y : Nat) : Int) + (y : Int) * ((x / y : Nat) : Int) = (x : Int) := by
          exact_mod_cast Nat.mod_add_div x y
        omega
      have hgcd : Nat.gcd x y = Nat.gcd y (x % y) :=
        (Nat.gcd_comm x y).trans ((Nat.gcd_rec y x).trans (Nat.gcd_comm _ y))
      rw [hgcd, ← hrec, hmod]
      ring

theorem fmpz_invmod_spec {g h v : Int} (hv : fmpz_invmod g h = some v) :
    Int.gcd g h = 1 ∧ g * v ≡ 1 [ZMOD h] := by
  unfold fmpz_invmod at hv
  split at hv
  case isFalse => cases hv
  case isTrue hg =>
    have hveq : (g.sign * (xgcdF (h.natAbs + 1) g.natAbs h.natAbs).1) % h = v :=
      Option.some.inj hv
    refine ⟨hg, ?_⟩
    have hbez := xgcdF_bezout (h.natAbs + 1) g.natAbs h.natAbs (Nat.lt_succ_self _)
    have hone : (g.natAbs : Int) * (xgcdF (h.natAbs + 1) g.natAbs h.natAbs).1 +
        (h.natAbs : Int) * (xgcdF (h.natAbs + 1) g.natAbs h.natAbs).2 = 1 := by
      rw [hbez, show Nat.gcd g.natAbs h.natAbs = Int.gcd g h from rfl, hg]
      rfl
    calc g * v ≡ g * (g.sign * (xgcdF (h.natAbs + 1) g.natAbs h.natAbs).1) [ZMOD h] := by
          rw [← hveq]
          exact Int.ModEq.mul_left g (Int.emod_emod_of_dvd _ dvd_rfl)
      _ = (g * g.sign) * (xgcdF (h.natAbs + 1) g.natAbs h.natAbs).1 := by ring
      _ = (g.natAbs : Int) * (xgcdF (h.natAbs + 1) g.natAbs h.natAbs).1 := by
          rw [Int.mul_sign]
      _ ≡ 1 [ZMOD h] := by
          refine (Int.modEq_iff_dvd).mpr ?_
          have hd : h ∣ (h.natAbs : Int) * (xgcdF (h.natAbs + 1) g.natAbs h.natAbs).2 :=
            Dvd.dvd.mul_right ((Int.dvd_natAbs).mpr dvd_rfl) _
          have : (1 : Int) - (g.natAbs : Int) * (xgcdF (h.natAbs + 1) g.natAbs h.natAbs).1 =
              (h.natAbs : Int) * (xgcdF (h.natAbs + 1) g.natAbs h.natAbs).2 := by omega
          rw [this]
          exact hd

/-! ### Scratch-store and instruction-step lemmas -/

theorem scratch_write_self (S : Nat → Int) (i : Nat) (v : Int) :
    scratch_write S i v i = v := by
  simp [scratch_write]

theorem scratch_write_other (S : Nat → Int) (i : Nat) (v : Int) {j : Nat} (h : j ≠ i) :
    scratch_write S i v j = S j := by
  simp [scratch_write, h]

theorem crt_run_instr_frame (t1 t2 : Nat) (inputs S : Nat → Int) (ins : CrtInstr)
    {s : Nat} (hs1 : s ≠ ins.a_idx) (hs2 : s ≠ t1) (hs3 : s ≠ t2) :
    crt_run_instr t1 t2 inputs S ins s = S s := by
  unfold crt_run_instr
  rw [scratch_write_other _ _ _ hs1, scratch_write_other _ _ _ hs2,
      scratch_write_other _ _ _ hs3, scratch_write_other _ _ _ hs2]

theorem crt_run_instr_value (t1 t2 : Nat) (inputs S : Nat → Int) (ins : CrtInstr)
    (hb : 0 ≤ ins.b_idx → (ins.b_idx.toNat ≠ t1 ∧ ins.b_idx.toNat ≠ t2)) :
    crt_run_instr t1 t2 inputs S ins ins.a_idx =
      fmpz_mods (instr_read inputs S ins.b_idx -
        ins.idem * (instr_read inputs S ins.b_idx - instr_read inputs S ins.c_idx))
        ins.modulus := by
  unfold crt_run_instr
  rw [scratch_write_self]
  congr 1
  rw [scratch_write_self, scratch_write_self, scratch_write_self]
  congr 1
  rcases lt_or_ge ins.b_idx 0 with hneg | hpos
  · simp [instr_read, hneg]
  · have hb' := hb hpos
    simp only [instr_read, if_neg (not_lt.mpr hpos)]
    rw [scratch_write_other _ _ _ hb'.2, scratch_write_other _ _ _ hb'.1]

theorem run_foldl_frame (t1 t2 : Nat) (inputs : Nat → Int) :
    ∀ (Δ : List CrtInstr) (S : Nat → Int) (s : Nat),
    (∀ ins ∈ Δ, s ≠ ins.a_idx) → s ≠ t1 → s ≠ t2 →
    Δ.foldl (crt_run_instr t1 t2 inputs) S s = S s := by
  intro Δ
  induction Δ with
  | nil => intro S s _ _ _; rfl
  | cons ins Δ ih =>
    intro S s hins h1 h2
    rw [List.foldl_cons, ih _ s (fun i hi => hins i (List.mem_cons_of_mem _ hi)) h1 h2]
    exact crt_run_instr_frame t1 t2 inputs S ins (hins ins (List.mem_cons_self _ _)) h1 h2

/-! ### Range products of moduli -/

theorem range'_split (s m n : Nat) :
    List.range' s (m + n) = List.range' s m ++ List.range' (s + m) n := by
  induction m generalizing s with
  | zero => simp
  | succ m ih =>
    have h1 : m + 1 + n = (m + n) + 1 := by omega
    rw [h1, List.range'_succ, ih (s + 1), List.range'_succ]
    simp only [List.cons_append]
    rw [show s + 1 + m = s + (m + 1) from by omega]

/-- Product of the moduli selected by positions `[start, stop)` of the
    permutation. -/
def prodMod (moduli : List Int) (perm : List (Nat × Nat)) (start stop : Nat) : Int :=
  ((List.range' start (stop - start)).map (fun k => moduli.getD (pidxD perm k) 0)).prod

theorem prodMod_split (moduli : List Int) (perm : List (Nat × Nat))
    {start mid stop : Nat} (h1 : start ≤ mid) (h2 : mid ≤ stop) :
    prodMod moduli perm start stop =
      prodMod moduli perm start mid * prodMod moduli perm mid stop := by
  unfold prodMod
  rw [show stop - start = (mid - start) + (stop - mid) from by omega, range'_split,
      show start + (mid - start) = mid from by omega, List.map_append, List.prod_append]

theorem prodMod_single (moduli : List Int) (perm : List (Nat × Nat)) (k : Nat) :
    prodMod moduli perm k (k + 1) = moduli.getD (pidxD perm k) 0 := by
  unfold prodMod
  simp

theorem prodMod_dvd (moduli : List Int) (perm : List (Nat × Nat))
    {start stop k : Nat} (h1 : start ≤ k) (h2 : k < stop) :
    moduli.getD (pidxD perm k) 0 ∣ prodMod moduli perm start stop := by
  unfold prodMod
  exact List.dvd_prod (List.mem_map_of_mem _ (List.mem_range'_1.mpr ⟨h1, by omega⟩))

theorem Intgcd_eq_one_of_dvd {a b A B : Int} (h : Int.gcd A B = 1)
    (da : a ∣ A) (db : b ∣ B) : Int.gcd a b = 1 :=
  Int.isCoprime_iff_gcd_eq_one.mp
    (((Int.isCoprime_iff_gcd_eq_one.mpr h).of_isCoprime_of_dvd_left da).of_isCoprime_of_dvd_right db)

/-! ### Bounds for the rebalancing loop -/

theorem crt_balance_ge (deg : Nat → Nat) :
    ∀ fuel lefttot righttot mid stop, mid ≤ crt_balance deg fuel lefttot righttot mid stop := by
  intro fuel
  induction fuel with
  | zero => intro _ _ mid _; exact le_refl mid
  | succ fuel ih =>
    intro lefttot righttot mid stop
    show mid ≤ (if _ ∧ _ ∧ _ then crt_balance deg fuel _ _ (mid + 1) stop else mid)
    split
    · exact le_trans (Nat.le_succ mid) (ih _ _ _ _)
    · exact le_refl mid

theorem crt_balance_lt (deg : Nat → Nat) :
    ∀ fuel lefttot righttot mid stop, mid < stop →
    crt_balance deg fuel lefttot righttot mid stop < stop := by
  intro fuel
  induction fuel with
  | zero => intro _ _ mid _ h; exact h
  | succ fuel ih =>
    intro lefttot righttot mid stop h
    show (if c : _ ∧ _ ∧ _ then crt_balance deg fuel _ _ (mid + 1) stop else mid) < stop
    split
    case isTrue hc => exact ih _ _ _ _ hc.2.1
    case isFalse => exact h

/-! ### The value computed by one combine node -/

theorem node_value_cong (Mb Mc Bv Cv idem : Int) (hMb : Mb ≠ 0) (hMc : Mc ≠ 0)
    (hidem0 : Mb ∣ idem) (hidem1 : Mc ∣ idem - 1) :
    (fmpz_mods (Bv - idem * (Bv - Cv)) (Mb * Mc) ≡ Bv [ZMOD Mb]) ∧
    (fmpz_mods (Bv - idem * (Bv - Cv)) (Mb * Mc) ≡ Cv [ZMOD Mc]) ∧
    -(((Mb * Mc).natAbs : Int)) < 2 * fmpz_mods (Bv - idem * (Bv - Cv)) (Mb * Mc) ∧
    2 * fmpz_mods (Bv - idem * (Bv - Cv)) (Mb * Mc) ≤ ((Mb * Mc).natAbs : Int) := by
  have hM : Mb * Mc ≠ 0 := mul_ne_zero hMb hMc
  have hmods := fmpz_mods_modeq (Bv - idem * (Bv - Cv)) (Mb * Mc)
  have hx_b : (Bv - idem * (Bv - Cv)) ≡ Bv [ZMOD Mb] := by
    refine (Int.modEq_iff_dvd).mpr ?_
    have : Bv - (Bv - idem * (Bv - Cv)) = idem * (Bv - Cv) := by ring
    rw [this]
    exact Dvd.dvd.mul_right hidem0 _
  have hx_c : (Bv - idem * (Bv - Cv)) ≡ Cv [ZMOD Mc] := by
    refine (Int.modEq_iff_dvd).mpr ?_
    have : Cv - (Bv - idem * (Bv - Cv)) = (Bv - Cv) * (idem - 1) := by ring
    rw [this]
    exact Dvd.dvd.mul_left hidem1 _
  have hbounds := fmpz_mods_bounds (Bv - idem * (Bv - Cv)) (Mb * Mc) hM
  exact ⟨((hmods.of_dvd (dvd_mul_right Mb Mc)).trans hx_b),
         ((hmods.of_dvd (dvd_mul_left Mc Mb)).trans hx_c), hbounds.1, hbounds.2⟩

/-! ### Structural facts about `_push_prog` -/

/-- Safety bounds for one emitted instruction, relative to the number of
    inputs `L`, the scratch size `ls` and the node's result slot `ret`. -/
def InstrBounds (L ls ret : Nat) (ins : CrtInstr) : Prop :=
  ret ≤ ins.a_idx ∧ ins.a_idx < ls ∧
  (0 ≤ ins.b_idx → ret < ins.b_idx.toNat ∧ ins.b_idx.toNat < ls) ∧
  (0 ≤ ins.c_idx → ret < ins.c_idx.toNat ∧ ins.c_idx.toNat < ls) ∧
  (ins.b_idx < 0 → (-ins.b_idx - 1).toNat < L) ∧
  (ins.c_idx < 0 → (-ins.c_idx - 1).toNat < L)

theorem InstrBounds.mono {L ls ls' ret ret' : Nat} {ins : CrtInstr}
    (h : InstrBounds L ls ret ins) (hls : ls ≤ ls') (hret : ret' ≤ ret) :
    InstrBounds L ls' ret' ins := by
  obtain ⟨h1, h2, h3, h4, h5, h6⟩ := h
  exact ⟨le_trans hret h1, lt_of_lt_of_le h2 hls,
    fun hb => ⟨lt_of_le_of_lt hret (h3 hb).1, lt_of_lt_of_le (h3 hb).2 hls⟩,
    fun hc => ⟨lt_of_le_of_lt hret (h4 hc).1, lt_of_lt_of_le (h4 hc).2 hls⟩, h5, h6⟩

/-- Everything `push_prog` guarantees about a successful call on
    `[start, stop)` writing its result to slot `ret`: the program grows
    by `stop − start − 1` instructions, the returned index is the last
    one, it writes `ret`, its modulus is the product of the subtree's
    moduli, the subtree's moduli are nonzero and pairwise coprime, the
    emitted instructions respect the slot/input bounds, and running just
    those instructions stores into slot `ret` a value `v` — independent
    of the initial scratch — that is congruent to the input of every
    leaf below the node and lies in `(−|M|/2, |M|/2]`. -/
structure PushProgFacts (moduli : List Int) (perm : List (Nat × Nat))
    (inputs : Nat → Int) (t1 t2 : Nat) (start stop ret : Nat)
    (P P' : fmpz_crt_struct) (r : Int) : Prop where
  entry_good : P.good = true
  ret_val : r = ((P'.prog.length - 1 : Nat) : Int)
  len_eq : P'.prog.length = P.prog.length + (stop - start - 1)
  prog_ext : ∃ Δ, P'.prog = P.prog ++ Δ
  ls_mono : P.localsize ≤ P'.localsize
  ls_ret : ret + 1 ≤ P'.localsize
  bounds : ∀ ins ∈ P'.prog.drop P.prog.length,
    InstrBounds moduli.length P'.localsize ret ins
  node_a : (P'.prog.getD (P'.prog.length - 1) default).a_idx = ret
  node_modulus : (P'.prog.getD (P'.prog.length - 1) default).modulus =
    prodMod moduli perm start stop
  prod_ne : prodMod moduli perm start stop ≠ 0
  coprime : ∀ k1 k2, start ≤ k1 → k1 < stop → start ≤ k2 → k2 < stop → k1 ≠ k2 →
    Int.gcd (moduli.getD (pidxD perm k1) 0) (moduli.getD (pidxD perm k2) 0) = 1
  mod_ne : ∀ k, start ≤ k → k < stop → moduli.getD (pidxD perm k) 0 ≠ 0
  run_sem : ∃ v : Int,
    (∀ k, start ≤ k → k < stop →
      v ≡ inputs (pidxD perm k) [ZMOD moduli.getD (pidxD perm k) 0]) ∧
    -(((prodMod moduli perm start stop).natAbs : Int)) < 2 * v ∧
    2 * v ≤ ((prodMod moduli perm start stop).natAbs : Int) ∧
    ∀ S : Nat → Int,
      ((P'.prog.drop P.prog.length).foldl (crt_run_instr t1 t2 inputs) S) ret = v ∧
      ∀ s, s < ret → ((P'.prog.drop P.prog.length).foldl (crt_run_instr t1 t2 inputs) S) s = S s

/-- What a successful `push_combine` did. -/
theorem push_combine_spec {ret : Nat} {bi ci lm rm : Int} {P2 P' : fmpz_crt_struct} {r : Int}
    (h : push_combine ret bi ci lm rm P2 = (P', r)) (hgood : P'.good = true) :
    P2.good = true ∧ lm ≠ 0 ∧ rm ≠ 0 ∧
    ∃ I, fmpz_invmod lm rm = some I ∧
      P'.prog = P2.prog ++ [{ a_idx := ret, b_idx := bi, c_idx := ci,
                              idem := lm * I, modulus := lm * rm }] ∧
      P'.localsize = P2.localsize ∧ P'.temp1loc = P2.temp1loc ∧
      P'.temp2loc = P2.temp2loc ∧ r = (P2.prog.length : Int) := by
  unfold push_combine at h
  split at h
  case isTrue hz =>
    injection h with hP hr
    rw [← hP] at hgood
    simp at hgood
  case isFalse hz =>
    push_neg at hz
    rcases hmv : fmpz_invmod lm rm with _ | I
    · simp only [hmv] at h
      injection h with hP hr
      rw [← hP] at hgood
      simp at hgood
    · simp only [hmv] at h
      injection h with hP hr
      subst hP
      exact ⟨hgood, hz.1, hz.2, I, rfl, rfl, rfl, rfl, rfl, hr.symm⟩

theorem getD_append_last {α : Type} (l : List α) (x d : α) :
    (l ++ [x]).getD l.length d = x := by
  rw [List.getD_eq_getElem?_getD, List.getElem?_append_right (le_refl _)]
  simp

/-- Assembly of `PushProgFacts` for an internal node from summaries of
    its two children (each either a leaf or a recursive call) and the
    result of `push_combine`. -/
theorem push_node_facts
    (moduli : List Int) (perm : List (Nat × Nat)) (inputs : Nat → Int) (t1 t2 : Nat)
    (start mid stop ret : Nat) (P P2 P' : fmpz_crt_struct) (r : Int)
    (bi ci lm rm : Int) (ΔL ΔR : List CrtInstr) (vB vC : Int)
    (hsm : start < mid) (hms : mid < stop)
    (hcomb : push_combine ret bi ci lm rm P2 = (P', r))
    (hgood : P'.good = true)
    (ht1 : P'.localsize ≤ t1) (ht2 : P'.localsize ≤ t2)
    (hPgood : P.good = true)
    (hlsmono : P.localsize ≤ P2.localsize)
    (hlsret : ret + 1 ≤ P2.localsize)
    (hprog2 : P2.prog = (P.prog ++ ΔL) ++ ΔR)
    (hlen2 : P2.prog.length = P.prog.length + ((mid - start - 1) + (stop - mid - 1)))
    (hlm : lm = prodMod moduli perm start mid)
    (hrm : rm = prodMod moduli perm mid stop)
    (hcopL : ∀ k1 k2, start ≤ k1 → k1 < mid → start ≤ k2 → k2 < mid → k1 ≠ k2 →
      Int.gcd (moduli.getD (pidxD perm k1) 0) (moduli.getD (pidxD perm k2) 0) = 1)
    (hcopR : ∀ k1 k2, mid ≤ k1 → k1 < stop → mid ≤ k2 → k2 < stop → k1 ≠ k2 →
      Int.gcd (moduli.getD (pidxD perm k1) 0) (moduli.getD (pidxD perm k2) 0) = 1)
    (hneL : ∀ k, start ≤ k → k < mid → moduli.getD (pidxD perm k) 0 ≠ 0)
    (hneR : ∀ k, mid ≤ k → k < stop → moduli.getD (pidxD perm k) 0 ≠ 0)
    (hboundsL : ∀ ins ∈ ΔL, InstrBounds moduli.length P2.localsize (ret + 1) ins)
    (hboundsR : ∀ ins ∈ ΔR, InstrBounds moduli.length P2.localsize (ret + 2) ins)
    (hbiB : 0 ≤ bi → ret < bi.toNat ∧ bi.toNat < P2.localsize)
    (hciB : 0 ≤ ci → ret < ci.toNat ∧ ci.toNat < P2.localsize)
    (hbiN : bi < 0 → (-bi - 1).toNat < moduli.length)
    (hciN : ci < 0 → (-ci - 1).toNat < moduli.length)
    (hreadB : ∀ S : Nat → Int,
      instr_read inputs ((ΔL ++ ΔR).foldl (crt_run_instr t1 t2 inputs) S) bi = vB)
    (hreadC : ∀ S : Nat → Int,
      instr_read inputs ((ΔL ++ ΔR).foldl (crt_run_instr t1 t2 inputs) S) ci = vC)
    (hcongB : ∀ k, start ≤ k → k < mid →
      vB ≡ inputs (pidxD perm k) [ZMOD moduli.getD (pidxD perm k) 0])
    (hcongC : ∀ k, mid ≤ k → k < stop →
      vC ≡ inputs (pidxD perm k) [ZMOD moduli.getD (pidxD perm k) 0])
    (hframeLR : ∀ (S : Nat → Int) (s : Nat), s < ret →
      ((ΔL ++ ΔR).foldl (crt_run_instr t1 t2 inputs) S) s = S s) :
    PushProgFacts moduli perm inputs t1 t2 start stop ret P P' r := by
  obtain ⟨hP2good, hlm0, hrm0, I, hmvI, hprog', hls', hT1, hT2, hr'⟩ :=
    push_combine_spec hcomb hgood
  set nins : CrtInstr := { a_idx := ret, b_idx := bi, c_idx := ci, idem := lm * I, modulus := lm * rm } with hnins
  obtain ⟨hgcdlr, hIinv⟩ := fmpz_invmod_spec hmvI
  have hd1 : rm ∣ lm * I - 1 := by
    have h1 : rm ∣ 1 - lm * I := (Int.modEq_iff_dvd).mp hIinv
    have h2 : lm * I - 1 = -(1 - lm * I) := by ring
    rw [h2]
    exact dvd_neg.mpr h1
  have hnode := node_value_cong lm rm vB vC (lm * I) hlm0 hrm0 (dvd_mul_right lm I) hd1
  have hM : lm * rm = prodMod moduli perm start stop := by
    rw [hlm, hrm]
    exact (prodMod_split moduli perm hsm.le hms.le).symm
  have hlen' : P'.prog.length = P2.prog.length + 1 := by rw [hprog']; simp
  have hassoc : ((P.prog ++ ΔL) ++ ΔR) ++ [nins] = P.prog ++ ((ΔL ++ ΔR) ++ [nins]) := by
    simp [List.append_assoc]
  have hdropEq : P'.prog.drop P.prog.length = (ΔL ++ ΔR) ++ [nins] := by
    rw [hprog', hprog2, hassoc]
    exact List.drop_left _ _
  have hnodeD : P'.prog.getD (P'.prog.length - 1) default = nins := by
    rw [hlen', hprog']
    simpa using getD_append_last P2.prog _ default
  refine ⟨hPgood, ?_, ?_, ?_, ?_, ?_, ?_, ?_, ?_, ?_, ?_, ?_, ?_⟩
  · rw [hr', hlen']
    simp
  · rw [hlen', hlen2]
    omega
  · refine ⟨(ΔL ++ ΔR) ++ [nins], ?_⟩
    rw [hprog', hprog2]
    exact hassoc
  · rw [hls']
    exact hlsmono
  · rw [hls']
    exact hlsret
  · intro insx hmem
    rw [hdropEq] at hmem
    rcases List.mem_append.mp hmem with hmem1 | hmem2
    · rcases List.mem_append.mp hmem1 with hmemL | hmemR
      · exact (hboundsL insx hmemL).mono (le_of_eq hls'.symm) (by omega)
      · exact (hboundsR insx hmemR).mono (le_of_eq hls'.symm) (by omega)
    · have hx : insx = nins := List.mem_singleton.mp hmem2
      subst hx
      refine ⟨le_refl ret, ?_, ?_, ?_, hbiN, hciN⟩
      · show ret < P'.localsize
        rw [hls']
        omega
      · intro hb
        have hx2 := hbiB hb
        rw [hls']
        exact hx2
      · intro hc
        have hx2 := hciB hc
        rw [hls']
        exact hx2
  · rw [hnodeD]
  · rw [hnodeD]
    exact hM
  · rw [← hM]
    exact mul_ne_zero hlm0 hrm0
  · intro k1 k2 h1 h2 h3 h4 hne
    rcases lt_or_ge k1 mid with hk1 | hk1 <;> rcases lt_or_ge k2 mid with hk2 | hk2
    · exact hcopL k1 k2 h1 hk1 h3 hk2 hne
    · exact Intgcd_eq_one_of_dvd hgcdlr (hlm ▸ prodMod_dvd moduli perm h1 hk1)
        (hrm ▸ prodMod_dvd moduli perm hk2 h4)
    · rw [Int.gcd_comm]
      exact Intgcd_eq_one_of_dvd hgcdlr (hlm ▸ prodMod_dvd moduli perm h3 hk2)
        (hrm ▸ prodMod_dvd moduli perm hk1 h2)
    · exact hcopR k1 k2 hk1 h2 hk2 h4 hne
  · intro k h1 h2
    rcases lt_or_ge k mid with hk | hk
    · exact hneL k h1 hk
    · exact hneR k hk h2
  · refine ⟨fmpz_mods (vB - lm * I * (vB - vC)) (lm * rm), ?_, ?_, ?_, ?_⟩
    · intro k h1 h2
      rcases lt_or_ge k mid with hk | hk
      · exact (hnode.1.of_dvd (hlm ▸ prodMod_dvd moduli perm h1 hk)).trans (hcongB k h1 hk)
      · exact (hnode.2.1.of_dvd (hrm ▸ prodMod_dvd moduli perm hk h2)).trans (hcongC k hk h2)
    · rw [← hM]
      exact hnode.2.2.1
    · rw [← hM]
      exact hnode.2.2.2
    · intro S
      have hfold : ((ΔL ++ ΔR) ++ [nins]).foldl (crt_run_instr t1 t2 inputs) S =
          crt_run_instr t1 t2 inputs ((ΔL ++ ΔR).foldl (crt_run_instr t1 t2 inputs) S) nins := by
        rw [List.foldl_append]
        rfl
      constructor
      · rw [hdropEq, hfold]
        have hval := crt_run_instr_value t1 t2 inputs
          ((ΔL ++ ΔR).foldl (crt_run_instr t1 t2 inputs) S) nins
          (by
            intro hb
            have hx2 := hbiB hb
            show bi.toNat ≠ t1 ∧ bi.toNat ≠ t2
            constructor <;> omega)
        rw [show nins.a_idx = ret from by rw [hnins]] at hval
        rw [hval]
        rw [show nins.b_idx = bi from by rw [hnins], show nins.c_idx = ci from by rw [hnins],
            hreadB S, hreadC S]
      · intro s hs
        rw [hdropEq, hfold]
        rw [crt_run_instr_frame t1 t2 inputs _ nins (show s ≠ nins.a_idx from by rw [hnins]; show s ≠ ret; omega)
          (by omega) (by omega)]
        exact hframeLR S s hs

theorem push_prog_spec (moduli : List Int) (perm : List (Nat × Nat))
    (inputs : Nat → Int) (t1 t2 : Nat)
    (hperm : ∀ k, k < perm.length → pidxD perm k < moduli.length) :
    ∀ fuel start stop ret P P' r,
    push_prog moduli perm fuel P ret start stop = (P', r) →
    stop - start ≤ fuel → start + 1 < stop → stop ≤ perm.length →
    P'.good = true → P'.localsize ≤ t1 → P'.localsize ≤ t2 →
    PushProgFacts moduli perm inputs t1 t2 start stop ret P P' r := by
  intro fuel
  induction fuel with
  | zero =>
    intro start stop ret P P' r hpush hfuel hss hstople hgood hT1 hT2
    exact absurd hfuel (by omega)
  | succ fuel ih =>
    intro start stop ret P P' r hpush hfuel hss hstople hgood hT1 hT2
    simp only [push_prog] at hpush
    set mid := crt_balance (pdegD perm) (stop - (start + (stop - start) / 2))
        (sumDeg (pdegD perm) start (start + (stop - start) / 2))
        (sumDeg (pdegD perm) (start + (stop - start) / 2) stop)
        (start + (stop - start) / 2) stop with hmiddef
    set Pup := { P with localsize := max P.localsize (1 + ret) } with hPup
    have hPupProg : Pup.prog = P.prog := by rw [hPup]
    have hPupGood : Pup.good = P.good := by rw [hPup]
    have hPupLen : Pup.prog.length = P.prog.length := by rw [hPupProg]
    have hPupLs : Pup.localsize = max P.localsize (1 + ret) := by rw [hPup]
    have hmid1 : start < mid := by
      have h0 := crt_balance_ge (pdegD perm) (stop - (start + (stop - start) / 2))
        (sumDeg (pdegD perm) start (start + (stop - start) / 2))
        (sumDeg (pdegD perm) (start + (stop - start) / 2) stop)
        (start + (stop - start) / 2) stop
      rw [← hmiddef] at h0
      omega
    have hmid2 : mid < stop := by
      have h0 := crt_balance_lt (pdegD perm) (stop - (start + (stop - start) / 2))
        (sumDeg (pdegD perm) start (start + (stop - start) / 2))
        (sumDeg (pdegD perm) (start + (stop - start) / 2) stop)
        (start + (stop - start) / 2) stop (by omega)
      rw [← hmiddef] at h0
      exact h0
    split at hpush
    case _ e heq =>
      -- early return from the left child: only possible when the left
      -- recursion came back not good, which contradicts P'.good
      by_cases hL : start + 1 < mid
      · rw [if_pos hL] at heq
        by_cases hgL : (push_prog moduli perm fuel Pup (ret + 1) start mid).1.good = true
        · rw [if_pos hgL] at heq
          simp at heq
        · rw [if_neg hgL] at heq
          injection heq with h3
          rw [← h3] at hpush
          injection hpush with h4 h5
          exact absurd (h4 ▸ hgood) hgL
      · rw [if_neg hL] at heq
        simp at heq
    case _ P1 bidx lmv heq =>
      split at hpush
      case _ e2 heq2 =>
        -- early return from the right child: same contradiction
        by_cases hR : mid + 1 < stop
        · rw [if_pos hR] at heq2
          by_cases hgR : (push_prog moduli perm fuel P1 (ret + 2) mid stop).1.good = true
          · rw [if_pos hgR] at heq2
            simp at heq2
          · rw [if_neg hgR] at heq2
            injection heq2 with h3
            rw [← h3] at hpush
            injection hpush with h4 h5
            exact absurd (h4 ▸ hgood) hgR
        · rw [if_neg hR] at heq2
          simp at heq2
      case _ P2 cidx rmv heq2 =>
        have hcombfacts := push_combine_spec hpush hgood
        obtain ⟨hcgood, hlm0, hrm0, I0, hmvI0, hprog0, hls0, hTa0, hTb0, hr0⟩ := hcombfacts
        by_cases hL : start + 1 < mid
        · -- left child is an internal node
          rw [if_pos hL] at heq
          by_cases hgL : (push_prog moduli perm fuel Pup (ret + 1) start mid).1.good = true
          case neg =>
            rw [if_neg hgL] at heq
            simp at heq
          case pos =>
            rw [if_pos hgL] at heq
            injection heq with h3
            injection h3 with hP1 h4
            injection h4 with hbid hlmv
            subst hP1
            subst hbid
            subst hlmv
            set PL := (push_prog moduli perm fuel Pup (ret + 1) start mid).1 with hPLdef
            set rL := (push_prog moduli perm fuel Pup (ret + 1) start mid).2 with hrLdef
            by_cases hR : mid + 1 < stop
            · -- both children internal
              rw [if_pos hR] at heq2
              by_cases hgR : (push_prog moduli perm fuel PL (ret + 2) mid stop).1.good = true
              case neg =>
                rw [if_neg hgR] at heq2
                simp at heq2
              case pos =>
                rw [if_pos hgR] at heq2
                injection heq2 with h3
                injection h3 with hP2 h4
                injection h4 with hcid hrmv
                subst hP2
                subst hcid
                subst hrmv
                set PR := (push_prog moduli perm fuel PL (ret + 2) mid stop).1 with hPRdef
                set rR := (push_prog moduli perm fuel PL (ret + 2) mid stop).2 with hrRdef
                have hPRt1 : PR.localsize ≤ t1 := by rw [← hls0]; exact hT1
                have hPRt2 : PR.localsize ≤ t2 := by rw [← hls0]; exact hT2
                have factsR := ih mid stop (ret + 2) PL PR rR rfl (by omega) hR hstople hgR
                  hPRt1 hPRt2
                have factsL := ih start mid (ret + 1) Pup PL rL rfl (by omega) hL (by omega) hgL
                  (le_trans factsR.ls_mono hPRt1) (le_trans factsR.ls_mono hPRt2)
                obtain ⟨DL, hDL⟩ := factsL.prog_ext
                obtain ⟨DR, hDR⟩ := factsR.prog_ext
                rw [hPupProg] at hDL
                have hdropL : PL.prog.drop P.prog.length = DL := by
                  rw [hDL]; exact List.drop_left _ _
                have hdropR : PR.prog.drop PL.prog.length = DR := by
                  rw [hDR]; exact List.drop_left _ _
                obtain ⟨vL, hcongL, hbL1, hbL2, hrunL⟩ := factsL.run_sem
                obtain ⟨vR, hcongR, hbR1, hbR2, hrunR⟩ := factsR.run_sem
                have hrunL2 : ∀ S : Nat → Int,
                    (DL.foldl (crt_run_instr t1 t2 inputs) S) (ret + 1) = vL ∧
                    ∀ s, s < ret + 1 → (DL.foldl (crt_run_instr t1 t2 inputs) S) s = S s := by
                  intro S
                  have h0 := hrunL S
                  rw [hPupLen, hdropL] at h0
                  exact h0
                have hrunR2 : ∀ S : Nat → Int,
                    (DR.foldl (crt_run_instr t1 t2 inputs) S) (ret + 2) = vR ∧
                    ∀ s, s < ret + 2 → (DR.foldl (crt_run_instr t1 t2 inputs) S) s = S s := by
                  intro S
                  have h0 := hrunR S
                  rw [hdropR] at h0
                  exact h0
                have hboundsL2 : ∀ ins ∈ DL, InstrBounds moduli.length PL.localsize (ret + 1) ins := by
                  have h0 := factsL.bounds
                  rw [hPupLen, hdropL] at h0
                  exact h0
                have hboundsR2 : ∀ ins ∈ DR, InstrBounds moduli.length PR.localsize (ret + 2) ins := by
                  have h0 := factsR.bounds
                  rw [hdropR] at h0
                  exact h0
                have hlmval : (PL.prog.getD rL.toNat default).modulus = prodMod moduli perm start mid := by
                  have h0 := factsL.node_modulus
                  have h1 : rL.toNat = PL.prog.length - 1 := by
                    rw [factsL.ret_val]; exact Int.toNat_natCast _
                  rw [h1]
                  exact h0
                have hrmval : (PR.prog.getD rR.toNat default).modulus = prodMod moduli perm mid stop := by
                  have h0 := factsR.node_modulus
                  have h1 : rR.toNat = PR.prog.length - 1 := by
                    rw [factsR.ret_val]; exact Int.toNat_natCast _
                  rw [h1]
                  exact h0
                refine push_node_facts moduli perm inputs t1 t2 start mid stop ret P PR P' r
                  _ _ _ _ DL DR vL vR
                  hmid1 hmid2 hpush hgood hT1 hT2 ?_ ?_ ?_ ?_ ?_ hlmval hrmval
                  factsL.coprime factsR.coprime factsL.mod_ne factsR.mod_ne
                  ?_ ?_ ?_ ?_ ?_ ?_ ?_ ?_ hcongL hcongR ?_
                · have h0 := factsL.entry_good
                  rw [hPupGood] at h0
                  exact h0
                · have h1 : P.localsize ≤ Pup.localsize := by
                    rw [hPupLs]; exact le_max_left _ _
                  exact le_trans h1 (le_trans factsL.ls_mono factsR.ls_mono)
                · have h1 := factsL.ls_ret
                  have h2 := factsR.ls_mono
                  omega
                · rw [hDR, hDL]
                · have h1 := factsR.len_eq
                  have h2 := factsL.len_eq
                  rw [hPupLen] at h2
                  omega
                · intro ins hins
                  exact (hboundsL2 ins hins).mono factsR.ls_mono (le_refl _)
                · exact hboundsR2
                · intro hb
                  have h1 := factsL.ls_ret
                  have h2 := factsR.ls_mono
                  constructor <;> omega
                · intro hc
                  have h1 := factsR.ls_ret
                  constructor <;> omega
                · intro hb
                  exact absurd hb (by omega)
                · intro hc
                  exact absurd hc (by omega)
                · intro S
                  rw [List.foldl_append]
                  show instr_read inputs
                    (DR.foldl (crt_run_instr t1 t2 inputs)
                      (DL.foldl (crt_run_instr t1 t2 inputs) S)) ((ret : Int) + 1) = vL
                  unfold instr_read
                  rw [if_neg (by omega : ¬ ((ret : Int) + 1 < 0))]
                  have harg : ((ret : Int) + 1).toNat = ret + 1 := by omega
                  rw [harg]
                  rw [(hrunR2 _).2 (ret + 1) (by omega)]
                  exact (hrunL2 S).1
                · intro S
                  rw [List.foldl_append]
                  show instr_read inputs
                    (DR.foldl (crt_run_instr t1 t2 inputs)
                      (DL.foldl (crt_run_instr t1 t2 inputs) S)) ((ret : Int) + 2) = vR
                  unfold instr_read
                  rw [if_neg (by omega : ¬ ((ret : Int) + 2 < 0))]
                  have harg : ((ret : Int) + 2).toNat = ret + 2 := by omega
                  rw [harg]
                  exact (hrunR2 _).1
                · intro S s hs
                  rw [List.foldl_append]
                  rw [(hrunR2 _).2 s (by omega)]
                  exact (hrunL2 S).2 s (by omega)
            · -- right child is the leaf perm[mid]; stop = mid + 1
              rw [if_neg hR] at heq2
              injection heq2 with h3
              injection h3 with hP2 h4
              injection h4 with hcid hrmv
              subst hP2
              subst hcid
              subst hrmv
              have hstopeq : stop = mid + 1 := by omega
              have hPLt1 : PL.localsize ≤ t1 := by rw [← hls0]; exact hT1
              have hPLt2 : PL.localsize ≤ t2 := by rw [← hls0]; exact hT2
              have factsL := ih start mid (ret + 1) Pup PL rL rfl (by omega) hL (by omega) hgL
                hPLt1 hPLt2
              obtain ⟨DL, hDL⟩ := factsL.prog_ext
              rw [hPupProg] at hDL
              have hdropL : PL.prog.drop P.prog.length = DL := by
                rw [hDL]; exact List.drop_left _ _
              obtain ⟨vL, hcongL, hbL1, hbL2, hrunL⟩ := factsL.run_sem
              have hrunL2 : ∀ S : Nat → Int,
                  (DL.foldl (crt_run_instr t1 t2 inputs) S) (ret + 1) = vL ∧
                  ∀ s, s < ret + 1 → (DL.foldl (crt_run_instr t1 t2 inputs) S) s = S s := by
                intro S
                have h0 := hrunL S
                rw [hPupLen, hdropL] at h0
                exact h0
              have hboundsL2 : ∀ ins ∈ DL, InstrBounds moduli.length PL.localsize (ret + 1) ins := by
                have h0 := factsL.bounds
                rw [hPupLen, hdropL] at h0
                exact h0
              have hlmval : (PL.prog.getD rL.toNat default).modulus = prodMod moduli perm start mid := by
                have h0 := factsL.node_modulus
                have h1 : rL.toNat = PL.prog.length - 1 := by
                  rw [factsL.ret_val]; exact Int.toNat_natCast _
                rw [h1]
                exact h0
              refine push_node_facts moduli perm inputs t1 t2 start mid stop ret P PL P' r
                _ _ _ _ DL [] vL (inputs (pidxD perm mid))
                hmid1 hmid2 hpush hgood hT1 hT2 ?_ ?_ ?_ ?_ ?_ hlmval ?_
                factsL.coprime ?_ factsL.mod_ne ?_
                ?_ ?_ ?_ ?_ ?_ ?_ ?_ ?_ hcongL ?_ ?_
              · have h0 := factsL.entry_good
                rw [hPupGood] at h0
                exact h0
              · have h1 : P.localsize ≤ Pup.localsize := by
                  rw [hPupLs]; exact le_max_left _ _
                exact le_trans h1 factsL.ls_mono
              · have h1 := factsL.ls_ret
                omega
              · rw [hDL]
                simp
              · have h2 := factsL.len_eq
                rw [hPupLen] at h2
                omega
              · rw [hstopeq]
                exact (prodMod_single moduli perm mid).symm
              · intro k1 k2 h1 h2 h3 h4 hne
                exact absurd (show k1 = k2 by omega) hne
              · intro k h1 h2
                have hk : k = mid := by omega
                subst hk
                exact hrm0
              · intro ins hins
                exact hboundsL2 ins hins
              · intro ins hins
                exact absurd hins (List.not_mem_nil ins)
              · intro hb
                have h1 := factsL.ls_ret
                constructor <;> omega
              · intro hc
                exact absurd hc (by omega)
              · intro hb
                exact absurd hb (by omega)
              · intro hc
                have harg : (-(-1 - (pidxD perm mid : Int)) - 1).toNat = pidxD perm mid := by
                  omega
                rw [harg]
                exact hperm _ (by omega)
              · intro S
                rw [List.append_nil]
                show instr_read inputs
                  (DL.foldl (crt_run_instr t1 t2 inputs) S) ((ret : Int) + 1) = vL
                unfold instr_read
                rw [if_neg (by omega : ¬ ((ret : Int) + 1 < 0))]
                have harg : ((ret : Int) + 1).toNat = ret + 1 := by omega
                rw [harg]
                exact (hrunL2 S).1
              · intro S
                rw [List.append_nil]
                show instr_read inputs
                  (DL.foldl (crt_run_instr t1 t2 inputs) S) (-1 - (pidxD perm mid : Int)) =
                  inputs (pidxD perm mid)
                unfold instr_read
                rw [if_pos (by omega : (-1 - (pidxD perm mid : Int)) < 0)]
                congr 1
                omega
              · intro k h1 h2
                have hk : k = mid := by omega
                subst hk
                exact Int.ModEq.refl _
              · intro S s hs
                rw [List.append_nil]
                exact (hrunL2 S).2 s (by omega)
        · -- left child is the leaf perm[start]; mid = start + 1
          rw [if_neg hL] at heq
          injection heq with h3
          injection h3 with hP1 h4
          injection h4 with hbid hlmv
          subst hP1
          subst hbid
          subst hlmv
          have hmideq : mid = start + 1 := by omega
          by_cases hR : mid + 1 < stop
          · -- right child is an internal node
            rw [if_pos hR] at heq2
            by_cases hgR : (push_prog moduli perm fuel Pup (ret + 2) mid stop).1.good = true
            case neg =>
              rw [if_neg hgR] at heq2
              simp at heq2
            case pos =>
              rw [if_pos hgR] at heq2
              injection heq2 with h3
              injection h3 with hP2 h4
              injection h4 with hcid hrmv
              subst hP2
              subst hcid
              subst hrmv
              set PR := (push_prog moduli perm fuel Pup (ret + 2) mid stop).1 with hPRdef
              set rR := (push_prog moduli perm fuel Pup (ret + 2) mid stop).2 with hrRdef
              have hPRt1 : PR.localsize ≤ t1 := by rw [← hls0]; exact hT1
              have hPRt2 : PR.localsize ≤ t2 := by rw [← hls0]; exact hT2
              have factsR := ih mid stop (ret + 2) Pup PR rR rfl (by omega) hR hstople hgR
                hPRt1 hPRt2
              obtain ⟨DR, hDR⟩ := factsR.prog_ext
              rw [hPupProg] at hDR
              have hdropR : PR.prog.drop P.prog.length = DR := by
                rw [hDR]; exact List.drop_left _ _
              obtain ⟨vR, hcongR, hbR1, hbR2, hrunR⟩ := factsR.run_sem
              have hrunR2 : ∀ S : Nat → Int,
                  (DR.foldl (crt_run_instr t1 t2 inputs) S) (ret + 2) = vR ∧
                  ∀ s, s < ret + 2 → (DR.foldl (crt_run_instr t1 t2 inputs) S) s = S s := by
                intro S
                have h0 := hrunR S
                rw [hPupLen, hdropR] at h0
                exact h0
              have hboundsR2 : ∀ ins ∈ DR, InstrBounds moduli.length PR.localsize (ret + 2) ins := by
                have h0 := factsR.bounds
                rw [hPupLen, hdropR] at h0
                exact h0
              have hrmval : (PR.prog.getD rR.toNat default).modulus = prodMod moduli perm mid stop := by
                have h0 := factsR.node_modulus
                have h1 : rR.toNat = PR.prog.length - 1 := by
                  rw [factsR.ret_val]; exact Int.toNat_natCast _
                rw [h1]
                exact h0
              refine push_node_facts moduli perm inputs t1 t2 start mid stop ret P PR P' r
                _ _ _ _ [] DR (inputs (pidxD perm start)) vR
                hmid1 hmid2 hpush hgood hT1 hT2 ?_ ?_ ?_ ?_ ?_ ?_ hrmval
                ?_ factsR.coprime ?_ factsR.mod_ne
                ?_ ?_ ?_ ?_ ?_ ?_ ?_ ?_ ?_ hcongR ?_
              · have h0 := factsR.entry_good
                rw [hPupGood] at h0
                exact h0
              · have h1 : P.localsize ≤ Pup.localsize := by
                  rw [hPupLs]; exact le_max_left _ _
                exact le_trans h1 factsR.ls_mono
              · have h1 : ret + 1 ≤ Pup.localsize := by
                  rw [hPupLs]; omega
                exact le_trans h1 factsR.ls_mono
              · rw [hDR]
                simp
              · have h2 := factsR.len_eq
                rw [hPupLen] at h2
                omega
              · rw [hmideq]
                exact (prodMod_single moduli perm start).symm
              · intro k1 k2 h1 h2 h3 h4 hne
                exact absurd (show k1 = k2 by omega) hne
              · intro k h1 h2
                have hk : k = start := by omega
                subst hk
                exact hlm0
              · intro ins hins
                exact absurd hins (List.not_mem_nil ins)
              · intro ins hins
                exact hboundsR2 ins hins
              · intro hb
                exact absurd hb (by omega)
              · intro hc
                have h1 := factsR.ls_ret
                constructor <;> omega
              · intro hb
                have harg : (-(-1 - (pidxD perm start : Int)) - 1).toNat = pidxD perm start := by
                  omega
                rw [harg]
                exact hperm _ (by omega)
              · intro hc
                exact absurd hc (by omega)
              · intro S
                show instr_read inputs
                  (([] ++ DR).foldl (crt_run_instr t1 t2 inputs) S) (-1 - (pidxD perm start : Int)) =
                  inputs (pidxD perm start)
                unfold instr_read
                rw [if_pos (by omega : (-1 - (pidxD perm start : Int)) < 0)]
                congr 1
                omega
              · intro S
                show instr_read inputs
                  (([] ++ DR).foldl (crt_run_instr t1 t2 inputs) S) ((ret : Int) + 2) = vR
                unfold instr_read
                rw [if_neg (by omega : ¬ ((ret : Int) + 2 < 0))]
                have harg : ((ret : Int) + 2).toNat = ret + 2 := by omega
                rw [harg]
                show (DR.foldl (crt_run_instr t1 t2 inputs) S) (ret + 2) = vR
                exact (hrunR2 S).1
              · intro k h1 h2
                have hk : k = start := by omega
                subst hk
                exact Int.ModEq.refl _
              · intro S s hs
                show (DR.foldl (crt_run_instr t1 t2 inputs) S) s = S s
                exact (hrunR2 S).2 s (by omega)
          · -- right child is the leaf perm[mid]; stop = mid + 1
            rw [if_neg hR] at heq2
            injection heq2 with h3
            injection h3 with hP2 h4
            injection h4 with hcid hrmv
            subst hP2
            subst hcid
            subst hrmv
            have hstopeq : stop = mid + 1 := by omega
            refine push_node_facts moduli perm inputs t1 t2 start mid stop ret P Pup P' r
              _ _ _ _ [] [] (inputs (pidxD perm start)) (inputs (pidxD perm mid))
              hmid1 hmid2 hpush hgood hT1 hT2 ?_ ?_ ?_ ?_ ?_ ?_ ?_ ?_ ?_ ?_ ?_
              ?_ ?_ ?_ ?_ ?_ ?_ ?_ ?_ ?_ ?_ ?_
            · rw [← hPupGood]
              exact hcgood
            · rw [hPupLs]
              exact le_max_left _ _
            · rw [hPupLs]
              omega
            · rw [hPupProg]
              simp
            · rw [hPupLen]
              omega
            · rw [hmideq, prodMod_single]
            · rw [hstopeq, prodMod_single]
            · intro k1 k2 h1 h2 h3 h4 hne
              exact absurd rfl (by omega : ¬ (0 : Nat) = 0)
            · intro k1 k2 h1 h2 h3 h4 hne
              exact absurd rfl (by omega : ¬ (0 : Nat) = 0)
            · intro k h1 h2
              have hk : k = start := by omega
              subst hk
              exact hlm0
            · intro k h1 h2
              have hk : k = mid := by omega
              subst hk
              exact hrm0
            · intro ins h
              exact absurd h (List.not_mem_nil ins)
            · intro ins h
              exact absurd h (List.not_mem_nil ins)
            · intro hb
              exact absurd hb (by omega)
            · intro hc
              exact absurd hc (by omega)
            · intro hb
              have harg : (-(-1 - (pidxD perm start : Int)) - 1).toNat = pidxD perm start := by
                omega
              rw [harg]
              exact hperm _ (by omega)
            · intro hc
              have harg : (-(-1 - (pidxD perm mid : Int)) - 1).toNat = pidxD perm mid := by
                omega
              rw [harg]
              exact hperm _ (by omega)
            · intro S
              show instr_read inputs S (-1 - (pidxD perm start : Int)) = inputs (pidxD perm start)
              unfold instr_read
              rw [if_pos (by omega : (-1 - (pidxD perm start : Int)) < 0)]
              congr 1
              omega
            · intro S
              show instr_read inputs S (-1 - (pidxD perm mid : Int)) = inputs (pidxD perm mid)
              unfold instr_read
              rw [if_pos (by omega : (-1 - (pidxD perm mid : Int)) < 0)]
              congr 1
              omega
            · intro k h1 h2
              have hk : k = start := by omega
              subst hk
              exact Int.ModEq.refl _
            · intro k h1 h2
              have hk : k = mid := by omega
              subst hk
              exact Int.ModEq.refl _
            · intro S s hs
              rfl

/-! ### From the permutation back to the original list of moduli -/

theorem map_getD_range {α β : Type} (l : List α) (d : α) (f : α → β) :
    (List.range l.length).map (fun k => f (l.getD k d)) = l.map f := by
  induction l with
  | nil => rfl
  | cons a t ih =>
    show (List.range (t.length + 1)).map (fun k => f ((a :: t).getD k d)) = f a :: t.map f
    rw [List.range_succ_eq_map, List.map_cons, List.map_map]
    refine congrArg (fun z => f a :: z) ?_
    rw [← ih]
    apply List.map_congr_left
    intro k _
    simp

theorem precompute_perm_length (moduli : List Int) :
    (precompute_perm moduli).length = moduli.length := by
  unfold precompute_perm
  rw [(List.perm_insertionSort (fun x y : Nat × Nat => x.2 ≤ y.2)
    ((List.range moduli.length).map (fun i => (i, fmpz_bits (moduli.getD i 0))))).length_eq]
  simp

theorem precompute_perm_mem {moduli : List Int} {p : Nat × Nat}
    (h : p ∈ precompute_perm moduli) : p.1 < moduli.length := by
  unfold precompute_perm at h
  have h2 := (List.perm_insertionSort
    (fun x y : Nat × Nat => x.2 ≤ y.2)
    ((List.range moduli.length).map (fun i => (i, fmpz_bits (moduli.getD i 0))))).mem_iff.mp h
  obtain ⟨i, hi, hEq⟩ := List.mem_map.mp h2
  rw [← hEq]
  simpa using hi

theorem precompute_perm_idx (moduli : List Int) :
    ∀ k, k < (precompute_perm moduli).length → pidxD (precompute_perm moduli) k < moduli.length := by
  intro k hk
  apply precompute_perm_mem
  show (precompute_perm moduli).getD k (0, 0) ∈ precompute_perm moduli
  rw [List.getD_eq_getElem _ _ hk]
  exact List.getElem_mem hk

theorem precompute_perm_cover (moduli : List Int) :
    ∀ i, i < moduli.length →
      ∃ k, k < (precompute_perm moduli).length ∧ pidxD (precompute_perm moduli) k = i := by
  intro i hi
  have hmem : ((i, fmpz_bits (moduli.getD i 0)) : Nat × Nat) ∈ precompute_perm moduli := by
    unfold precompute_perm
    rw [(List.perm_insertionSort _ _).mem_iff]
    exact List.mem_map_of_mem _ (List.mem_range.mpr hi)
  obtain ⟨k, hk, hEq⟩ := List.mem_iff_getElem.mp hmem
  refine ⟨k, hk, ?_⟩
  show ((precompute_perm moduli).getD k (0, 0)).1 = i
  rw [List.getD_eq_getElem _ _ hk, hEq]

theorem precompute_prod (moduli : List Int) :
    prodMod moduli (precompute_perm moduli) 0 moduli.length =
      ((List.range moduli.length).map (fun i => moduli.getD i 0)).prod := by
  unfold prodMod
  rw [Nat.sub_zero, ← List.range_eq_range']
  have h1 : (List.range moduli.length).map
        (fun k => moduli.getD (pidxD (precompute_perm moduli) k) 0)
      = (precompute_perm moduli).map (fun p => moduli.getD p.1 0) := by
    have hlen := precompute_perm_length moduli
    rw [← hlen]
    have := map_getD_range (precompute_perm moduli) ((0 : Nat), (0 : Nat))
      (fun p => moduli.getD p.1 0)
    simpa [pidxD] using this
  rw [h1]
  have h2 := ((List.perm_insertionSort (fun x y : Nat × Nat => x.2 ≤ y.2)
    ((List.range moduli.length).map
      (fun i => (i, fmpz_bits (moduli.getD i 0))))).map
        (fun p => moduli.getD p.1 0)).prod_eq
  unfold precompute_perm
  rw [h2, List.map_map]
  rfl

/-! ### Elementary facts about the phases of `fmpz_crt_precompute_p` -/

theorem precompute_good_eq (moduli : List Int) :
    (fmpz_crt_precompute_p moduli).good = (precompute_raw moduli).good := by
  unfold fmpz_crt_precompute_p precompute_cleared
  by_cases hg : (precompute_raw moduli).good = true
  · rw [if_pos hg]
  · rw [if_neg hg]

theorem precompute_cleared_ls (moduli : List Int) :
    (precompute_cleared moduli).localsize = (precompute_raw moduli).localsize := by
  unfold precompute_cleared
  by_cases hg : (precompute_raw moduli).good = true
  · rw [if_pos hg]
  · rw [if_neg hg]

theorem precompute_prog_eq_of_good (moduli : List Int)
    (h : (precompute_raw moduli).good = true) :
    (fmpz_crt_precompute_p moduli).prog = (precompute_raw moduli).prog := by
  unfold fmpz_crt_precompute_p precompute_cleared
  rw [if_pos h]

theorem precompute_prog_of_not_good (moduli : List Int)
    (h : (precompute_raw moduli).good = false) :
    (fmpz_crt_precompute_p moduli).prog = [] := by
  unfold fmpz_crt_precompute_p precompute_cleared
  rw [if_neg (by simp [h])]

/-- For two or more moduli, a successful `fmpz_crt_precompute_p` hands
    the whole `PushProgFacts` summary of the top-level `_push_prog` call
    (over `[0, L)`, result slot `0`, temporaries just past the compiled
    program's scratch). -/
theorem precompute_facts (moduli : List Int) (inputs : Nat → Int)
    (h2 : 1 < moduli.length)
    (hgood : (fmpz_crt_precompute_p moduli).good = true) :
    PushProgFacts moduli (precompute_perm moduli) inputs
      (precompute_raw moduli).localsize ((precompute_raw moduli).localsize + 1)
      0 moduli.length 0
      { prog := [], localsize := 1, temp1loc := 0, temp2loc := 0, good := true }
      (precompute_raw moduli)
      (push_prog moduli (precompute_perm moduli) moduli.length
        { prog := [], localsize := 1, temp1loc := 0, temp2loc := 0, good := true }
        0 0 moduli.length).2 := by
  have hgr : (precompute_raw moduli).good = true := by
    rw [precompute_good_eq] at hgood
    exact hgood
  have hraw : precompute_raw moduli = (push_prog moduli (precompute_perm moduli) moduli.length
      { prog := [], localsize := 1, temp1loc := 0, temp2loc := 0, good := true }
      0 0 moduli.length).1 := by
    unfold precompute_raw
    rw [if_pos h2]
  have hpair : push_prog moduli (precompute_perm moduli) moduli.length
      { prog := [], localsize := 1, temp1loc := 0, temp2loc := 0, good := true }
      0 0 moduli.length =
      (precompute_raw moduli,
        (push_prog moduli (precompute_perm moduli) moduli.length
          { prog := [], localsize := 1, temp1loc := 0, temp2loc := 0, good := true }
          0 0 moduli.length).2) := by
    rw [hraw]
  exact push_prog_spec moduli (precompute_perm moduli) inputs
    (precompute_raw moduli).localsize ((precompute_raw moduli).localsize + 1)
    (precompute_perm_idx moduli) moduli.length 0 moduli.length 0
    _ _ _ hpair (by omega) (by omega)
    (le_of_eq (precompute_perm_length moduli).symm) hgr (le_refl _) (Nat.le_succ _)

/-- The degenerate case of `fmpz_crt_precompute_p` (a single modulus):
    the lone instruction stores `inputs[0] mods moduli[0]` into slot 0,
    and success forces `moduli[0] ≠ 0`. -/
theorem precompute_single_run (moduli : List Int) (inputs S : Nat → Int)
    (h1 : moduli.length ≤ 1)
    (hgood : (fmpz_crt_precompute_p moduli).good = true) :
    fmpz_crt_run_p (fmpz_crt_precompute_p moduli) inputs S 0 =
      fmpz_mods (inputs 0) (moduli.getD 0 0) ∧ moduli.getD 0 0 ≠ 0 := by
  have hg : (precompute_raw moduli).good = true := by
    rw [← precompute_good_eq]
    exact hgood
  have hraw : precompute_raw moduli =
      { prog := [{ a_idx := 0, b_idx := -1, c_idx := -1, idem := 0, modulus := moduli.getD 0 0 }],
        localsize := 1, temp1loc := 0, temp2loc := 0,
        good := decide (¬ moduli.getD 0 0 = 0) } := by
    unfold precompute_raw
    rw [if_neg (by omega)]
  have hne : moduli.getD 0 0 ≠ 0 := by
    rw [hraw] at hg
    simpa using hg
  refine ⟨?_, hne⟩
  have hprog : (fmpz_crt_precompute_p moduli).prog =
      [{ a_idx := 0, b_idx := -1, c_idx := -1, idem := 0, modulus := moduli.getD 0 0 }] := by
    rw [precompute_prog_eq_of_good moduli hg, hraw]
  have ht1 : (fmpz_crt_precompute_p moduli).temp1loc = 1 := by
    show (precompute_cleared moduli).localsize = 1
    rw [precompute_cleared_ls, hraw]
  have ht2 : (fmpz_crt_precompute_p moduli).temp2loc = 2 := by
    show (precompute_cleared moduli).localsize + 1 = 2
    rw [precompute_cleared_ls, hraw]
  unfold fmpz_crt_run_p
  rw [hprog, ht1, ht2, List.foldl_cons, List.foldl_nil]
  have hv := crt_run_instr_value 1 2 inputs S { a_idx := 0, b_idx := -1, c_idx := -1, idem := 0, modulus := moduli.getD 0 0 } (fun hb => by simp at hb)
  have ha : ({ a_idx := 0, b_idx := -1, c_idx := -1, idem := 0, modulus := moduli.getD 0 0 } : CrtInstr).a_idx = 0 := rfl
  rw [ha] at hv
  rw [hv]
  have hread : instr_read inputs S (-1) = inputs 0 := by
    unfold instr_read
    rw [if_pos (by decide)]
    rfl
  show fmpz_mods (instr_read inputs S (-1) - 0 * (instr_read inputs S (-1) - instr_read inputs S (-1))) (moduli.getD 0 0) = _
  rw [hread]
  congr 1
  ring

/-- C1: for `L ≥ 1` pairwise-coprime nonzero moduli on which
    `fmpz_crt_precompute_p` succeeded, `_fmpz_crt_run_p` stores into
    `outputs[0]` a value `r` with `r ≡ inputs[i] (mod moduli[i])` for
    every `i` and `r ∈ (−|M|/2, |M|/2]` where `M = Π moduli[i]`; for
    `L = 1` the value is exactly `inputs[0] mods moduli[0]`. -/
theorem claim_C1_crt_run (moduli : List Int) (inputs S : Nat → Int)
    (hlen : 1 ≤ moduli.length)
    (hcop : ∀ i j, i < moduli.length → j < moduli.length → i ≠ j →
      Int.gcd (moduli.getD i 0) (moduli.getD j 0) = 1)
    (hnz : ∀ i, i < moduli.length → moduli.getD i 0 ≠ 0)
    (hgood : (fmpz_crt_precompute_p moduli).good = true) :
    (∀ i, i < moduli.length →
      fmpz_crt_run_p (fmpz_crt_precompute_p moduli) inputs S 0 ≡
        inputs i [ZMOD moduli.getD i 0]) ∧
    -(((((List.range moduli.length).map (fun i => moduli.getD i 0)).prod).natAbs : Int)) <
        2 * fmpz_crt_run_p (fmpz_crt_precompute_p moduli) inputs S 0 ∧
    2 * fmpz_crt_run_p (fmpz_crt_precompute_p moduli) inputs S 0 ≤
        ((((List.range moduli.length).map (fun i => moduli.getD i 0)).prod).natAbs : Int) ∧
    (moduli.length = 1 →
      fmpz_crt_run_p (fmpz_crt_precompute_p moduli) inputs S 0 =
        fmpz_mods (inputs 0) (moduli.getD 0 0)) := by
  rcases Nat.lt_or_ge 1 moduli.length with h2 | h2
  · have hgr : (precompute_raw moduli).good = true := by
      rw [← precompute_good_eq]
      exact hgood
    have facts := precompute_facts moduli inputs h2 hgood
    obtain ⟨v, hcong, hlb, hub, hrun⟩ := facts.run_sem
    have hrun' : fmpz_crt_run_p (fmpz_crt_precompute_p moduli) inputs S 0 = v := by
      have h := (hrun S).1
      have h0 : ({ prog := ([] : List CrtInstr), localsize := 1, temp1loc := 0, temp2loc := 0, good := true } : fmpz_crt_struct).prog.length = 0 := rfl
      rw [h0, List.drop_zero] at h
      unfold fmpz_crt_run_p
      rw [precompute_prog_eq_of_good moduli hgr]
      have ht1 : (fmpz_crt_precompute_p moduli).temp1loc = (precompute_raw moduli).localsize := by
        show (precompute_cleared moduli).localsize = _
        rw [precompute_cleared_ls]
      have ht2 : (fmpz_crt_precompute_p moduli).temp2loc =
          (precompute_raw moduli).localsize + 1 := by
        show (precompute_cleared moduli).localsize + 1 = _
        rw [precompute_cleared_ls]
      rw [ht1, ht2]
      exact h
    have hM := precompute_prod moduli
    refine ⟨?_, ?_, ?_, ?_⟩
    · intro i hi
      obtain ⟨k, hk, hki⟩ := precompute_perm_cover moduli i hi
      have hk' : k < moduli.length := by
        rw [← precompute_perm_length moduli]
        exact hk
      have hc := hcong k (Nat.zero_le k) hk'
      rw [hki] at hc
      rw [hrun']
      exact hc
    · rw [hrun', ← hM]
      exact hlb
    · rw [hrun', ← hM]
      exact hub
    · intro h1
      exact absurd h1 (by omega)
  · obtain ⟨hr, hne⟩ := precompute_single_run moduli inputs S h2 hgood
    have hlen1 : moduli.length = 1 := by omega
    have hM : ((List.range moduli.length).map (fun i => moduli.getD i 0)).prod =
        moduli.getD 0 0 := by
      rw [hlen1, show List.range 1 = [0] from rfl, List.map_cons, List.map_nil,
        List.prod_cons, List.prod_nil, mul_one]
    refine ⟨?_, ?_, ?_, fun _ => hr⟩
    · intro i hi
      have hi0 : i = 0 := by omega
      subst hi0
      rw [hr]
      exact fmpz_mods_modeq (inputs 0) (moduli.getD 0 0)
    · rw [hr, hM]
      exact (fmpz_mods_bounds (inputs 0) (moduli.getD 0 0) hne).1
    · rw [hr, hM]
      exact (fmpz_mods_bounds (inputs 0) (moduli.getD 0 0) hne).2

/-- Witness for C1, the spec's scenario E5: moduli `{3, 5}`, inputs
    `{2, 3}`; the runner stores `−7` (`≡ 2 mod 3`, `≡ 3 mod 5`,
    `∈ (−15/2, 15/2]`). -/
theorem claim_C1_crt_run_witness :
    (∀ i, i < ([3, 5] : List Int).length →
      fmpz_crt_run_p (fmpz_crt_precompute_p [3, 5])
          (fun i => if i = 0 then 2 else 3) (fun _ => 0) 0 ≡
        (fun i : Nat => if i = 0 then (2 : Int) else 3) i
          [ZMOD ([3, 5] : List Int).getD i 0]) ∧
    -(((((List.range ([3, 5] : List Int).length).map
          (fun i => ([3, 5] : List Int).getD i 0)).prod).natAbs : Int)) <
        2 * fmpz_crt_run_p (fmpz_crt_precompute_p [3, 5])
          (fun i => if i = 0 then 2 else 3) (fun _ => 0) 0 ∧
    2 * fmpz_crt_run_p (fmpz_crt_precompute_p [3, 5])
          (fun i => if i = 0 then 2 else 3) (fun _ => 0) 0 ≤
        ((((List.range ([3, 5] : List Int).length).map
          (fun i => ([3, 5] : List Int).getD i 0)).prod).natAbs : Int) ∧
    (([3, 5] : List Int).length = 1 →
      fmpz_crt_run_p (fmpz_crt_precompute_p [3, 5])
          (fun i => if i = 0 then 2 else 3) (fun _ => 0) 0 =
        fmpz_mods ((fun i : Nat => if i = 0 then (2 : Int) else 3) 0)
          (([3, 5] : List Int).getD 0 0)) :=
  claim_C1_crt_run [3, 5] (fun i => if i = 0 then 2 else 3) (fun _ => 0)
    (by decide)
    (by
      intro i j hi hj hij
      simp only [List.length_cons, List.length_nil] at hi hj
      interval_cases i <;> interval_cases j <;> first | exact absurd rfl hij | decide)
    (by
      intro i hi
      simp only [List.length_cons, List.length_nil] at hi
      interval_cases i <;> decide)
    (by decide)

/-- C3: if the moduli contain a non-coprime pair (so some internal
    `fmpz_invmod` fails, e.g. `{6, 10}`), or any zero modulus, then
    `fmpz_crt_precompute_p` reports failure (returns 0, i.e. `good =
    false`) and the program is left with length 0. -/
theorem claim_C3_noncoprime (moduli : List Int)
    (hbad : (∃ i j, i < moduli.length ∧ j < moduli.length ∧ i ≠ j ∧
        Int.gcd (moduli.getD i 0) (moduli.getD j 0) ≠ 1) ∨
      ∃ i, i < moduli.length ∧ moduli.getD i 0 = 0) :
    (fmpz_crt_precompute_p moduli).good = false ∧
    (fmpz_crt_precompute_p moduli).prog = [] := by
  by_cases hg : (fmpz_crt_precompute_p moduli).good = true
  · exfalso
    rcases Nat.lt_or_ge 1 moduli.length with h2 | h2
    · have facts := precompute_facts moduli (fun _ => 0) h2 hg
      rcases hbad with ⟨i, j, hi, hj, hij, hgcd⟩ | ⟨i, hi, hz⟩
      · obtain ⟨k1, hk1, he1⟩ := precompute_perm_cover moduli i hi
        obtain ⟨k2, hk2, he2⟩ := precompute_perm_cover moduli j hj
        have hk1' : k1 < moduli.length := by
          rw [← precompute_perm_length moduli]
          exact hk1
        have hk2' : k2 < moduli.length := by
          rw [← precompute_perm_length moduli]
          exact hk2
        have hne : k1 ≠ k2 := fun h => hij (by rw [← he1, ← he2, h])
        have hc := facts.coprime k1 k2 (Nat.zero_le _) hk1' (Nat.zero_le _) hk2' hne
        rw [he1, he2] at hc
        exact hgcd hc
      · obtain ⟨k, hk, he⟩ := precompute_perm_cover moduli i hi
        have hk' : k < moduli.length := by
          rw [← precompute_perm_length moduli]
          exact hk
        have hm := facts.mod_ne k (Nat.zero_le _) hk'
        rw [he] at hm
        exact hm hz
    · rcases hbad with ⟨i, j, hi, hj, hij, _⟩ | ⟨i, hi, hz⟩
      · omega
      · have hi0 : i = 0 := by omega
        subst hi0
        have hgr : (precompute_raw moduli).good = true := by
          rw [← precompute_good_eq]
          exact hg
        unfold precompute_raw at hgr
        rw [if_neg (by omega)] at hgr
        have hnz : ¬ moduli.getD 0 0 = 0 := by simpa using hgr
        exact hnz hz
  · have hgf : (fmpz_crt_precompute_p moduli).good = false := by
      cases hB : (fmpz_crt_precompute_p moduli).good
      · rfl
      · exact absurd hB hg
    have hgr : (precompute_raw moduli).good = false := by
      rw [← precompute_good_eq]
      exact hgf
    exact ⟨hgf, precompute_prog_of_not_good moduli hgr⟩

/-- Witness for C3, the spec's scenario P5: moduli `{6, 10}` share the
    factor 2, so precompute fails and clears the program. -/
theorem claim_C3_noncoprime_witness :
    (fmpz_crt_precompute_p [6, 10]).good = false ∧
    (fmpz_crt_precompute_p [6, 10]).prog = [] :=
  claim_C3_noncoprime [6, 10]
    (Or.inl ⟨0, 1, by decide, by decide, by decide, by decide⟩)

/-- For two or more moduli, the value a successful program stores into
    slot 0 does not depend on the initial scratch contents. -/
theorem precompute_run_value (moduli : List Int) (inputs : Nat → Int)
    (h2 : 1 < moduli.length)
    (hgood : (fmpz_crt_precompute_p moduli).good = true) :
    ∃ v : Int, ∀ S : Nat → Int,
      fmpz_crt_run_p (fmpz_crt_precompute_p moduli) inputs S 0 = v := by
  have hgr : (precompute_raw moduli).good = true := by
    rw [← precompute_good_eq]
    exact hgood
  have facts := precompute_facts moduli inputs h2 hgood
  obtain ⟨v, _, _, _, hrun⟩ := facts.run_sem
  refine ⟨v, fun S => ?_⟩
  have h := (hrun S).1
  have h0 : ({ prog := ([] : List CrtInstr), localsize := 1, temp1loc := 0, temp2loc := 0, good := true } : fmpz_crt_struct).prog.length = 0 := rfl
  rw [h0, List.drop_zero] at h
  unfold fmpz_crt_run_p
  rw [precompute_prog_eq_of_good moduli hgr]
  have ht1 : (fmpz_crt_precompute_p moduli).temp1loc = (precompute_raw moduli).localsize := by
    show (precompute_cleared moduli).localsize = _
    rw [precompute_cleared_ls]
  have ht2 : (fmpz_crt_precompute_p moduli).temp2loc =
      (precompute_raw moduli).localsize + 1 := by
    show (precompute_cleared moduli).localsize + 1 = _
    rw [precompute_cleared_ls]
  rw [ht1, ht2]
  exact h

/-- C9: two executions of `_fmpz_crt_run_p` on the same successfully
    compiled program and the same inputs, but different scratch buffers
    with arbitrary prior contents, produce the same value in
    `outputs[0]`. -/
theorem claim_C9_scratch_independence (moduli : List Int) (inputs S1 S2 : Nat → Int)
    (hgood : (fmpz_crt_precompute_p moduli).good = true) :
    fmpz_crt_run_p (fmpz_crt_precompute_p moduli) inputs S1 0 =
    fmpz_crt_run_p (fmpz_crt_precompute_p moduli) inputs S2 0 := by
  rcases Nat.lt_or_ge 1 moduli.length with h2 | h2
  · obtain ⟨v, hv⟩ := precompute_run_value moduli inputs h2 hgood
    rw [hv S1, hv S2]
  · rw [(precompute_single_run moduli inputs S1 h2 hgood).1,
      (precompute_single_run moduli inputs S2 h2 hgood).1]

/-- Witness for C9, the spec's scenario E6: moduli `{7, 11, 13}`,
    inputs `{1, 2, 3}`, one zeroed and one garbage-filled scratch. -/
theorem claim_C9_scratch_independence_witness :
    fmpz_crt_run_p (fmpz_crt_precompute_p [7, 11, 13])
        (fun i => (i : Int) + 1) (fun _ => 0) 0 =
    fmpz_crt_run_p (fmpz_crt_precompute_p [7, 11, 13])
        (fun i => (i : Int) + 1) (fun s => (s : Int) + 17) 0 :=
  claim_C9_scratch_independence [7, 11, 13] (fun i => (i : Int) + 1)
    (fun _ => 0) (fun s => (s : Int) + 17) (by decide)

/-! ### Access discipline of the runner -/

theorem instr_read_agree (n : Nat) (inputs T1 T2 : Nat → Int)
    (hT : ∀ s, s < n → T1 s = T2 s) (idx : Int) (hidx : 0 ≤ idx → idx.toNat < n) :
    instr_read inputs T1 idx = instr_read inputs T2 idx := by
  unfold instr_read
  split
  · rfl
  · next h => exact hT _ (hidx (by omega))

theorem scratch_write_agree2 (n : Nat) (T1 T2 : Nat → Int) (i : Nat) (v1 v2 : Int)
    (hT : ∀ s, s < n → T1 s = T2 s) (hv : v1 = v2) :
    ∀ s, s < n → scratch_write T1 i v1 s = scratch_write T2 i v2 s := by
  intro s hs
  unfold scratch_write
  split
  · exact hv
  · exact hT s hs

/-- One instruction reads scratch slots only below `n` (given its operand
    bounds and `t1, t2 < n`), so scratch buffers agreeing below `n` stay
    in agreement below `n`. -/
theorem crt_run_instr_agree (t1 t2 n : Nat) (inputs : Nat → Int) (ins : CrtInstr)
    (S1 S2 : Nat → Int)
    (hb : 0 ≤ ins.b_idx → ins.b_idx.toNat < n) (hc : 0 ≤ ins.c_idx → ins.c_idx.toNat < n)
    (ht1 : t1 < n) (ht2 : t2 < n)
    (hS : ∀ s, s < n → S1 s = S2 s) :
    ∀ s, s < n → crt_run_instr t1 t2 inputs S1 ins s = crt_run_instr t1 t2 inputs S2 ins s := by
  intro s hs
  simp only [crt_run_instr]
  have e1 : instr_read inputs S1 ins.b_idx = instr_read inputs S2 ins.b_idx :=
    instr_read_agree n inputs S1 S2 hS ins.b_idx hb
  have e2 : instr_read inputs S1 ins.c_idx = instr_read inputs S2 ins.c_idx :=
    instr_read_agree n inputs S1 S2 hS ins.c_idx hc
  set o1a := scratch_write S1 t1 (instr_read inputs S1 ins.b_idx - instr_read inputs S1 ins.c_idx) with ho1a
  set o1b := scratch_write S2 t1 (instr_read inputs S2 ins.b_idx - instr_read inputs S2 ins.c_idx) with ho1b
  have h1 : ∀ u, u < n → o1a u = o1b u :=
    scratch_write_agree2 n S1 S2 t1 _ _ hS (by rw [e1, e2])
  set o2a := scratch_write o1a t2 (ins.idem * o1a t1) with ho2a
  set o2b := scratch_write o1b t2 (ins.idem * o1b t1) with ho2b
  have h2 : ∀ u, u < n → o2a u = o2b u :=
    scratch_write_agree2 n o1a o1b t2 _ _ h1 (by rw [h1 t1 ht1])
  set o3a := scratch_write o2a t1 (instr_read inputs o2a ins.b_idx - o2a t2) with ho3a
  set o3b := scratch_write o2b t1 (instr_read inputs o2b ins.b_idx - o2b t2) with ho3b
  have h3 : ∀ u, u < n → o3a u = o3b u :=
    scratch_write_agree2 n o2a o2b t1 _ _ h2
      (by rw [instr_read_agree n inputs o2a o2b h2 ins.b_idx hb, h2 t2 ht2])
  exact scratch_write_agree2 n o3a o3b ins.a_idx _ _ h3 (by rw [h3 t1 ht1]) s hs

/-- Running a whole instruction list preserves agreement below `n`. -/
theorem run_foldl_agree (t1 t2 n : Nat) (inputs : Nat → Int) :
    ∀ (Δ : List CrtInstr) (S1 S2 : Nat → Int),
    (∀ ins ∈ Δ, (0 ≤ ins.b_idx → ins.b_idx.toNat < n) ∧
      (0 ≤ ins.c_idx → ins.c_idx.toNat < n)) →
    t1 < n → t2 < n →
    (∀ s, s < n → S1 s = S2 s) →
    ∀ s, s < n →
      Δ.foldl (crt_run_instr t1 t2 inputs) S1 s = Δ.foldl (crt_run_instr t1 t2 inputs) S2 s := by
  intro Δ
  induction Δ with
  | nil => intro S1 S2 _ _ _ hS s hs; exact hS s hs
  | cons ins Δ ih =>
    intro S1 S2 hins ht1 ht2 hS s hs
    rw [List.foldl_cons, List.foldl_cons]
    exact ih _ _ (fun i hi => hins i (List.mem_cons_of_mem _ hi)) ht1 ht2
      (crt_run_instr_agree t1 t2 n inputs ins S1 S2
        (hins ins (List.mem_cons_self _ _)).1 (hins ins (List.mem_cons_self _ _)).2
        ht1 ht2 hS) s hs

theorem instr_read_inputs_agree (L : Nat) (inputs1 inputs2 : Nat → Int)
    (h : ∀ i, i < L → inputs1 i = inputs2 i) (T : Nat → Int) (idx : Int)
    (hidx : idx < 0 → (-idx - 1).toNat < L) :
    instr_read inputs1 T idx = instr_read inputs2 T idx := by
  unfold instr_read
  split
  · next hneg => exact h _ (hidx hneg)
  · rfl

/-- One instruction reads inputs only below `L` (given its operand
    bounds), so it cannot distinguish input vectors agreeing below `L`. -/
theorem crt_run_instr_inputs_agree (t1 t2 L : Nat) (inputs1 inputs2 : Nat → Int)
    (h : ∀ i, i < L → inputs1 i = inputs2 i) (ins : CrtInstr)
    (hb : ins.b_idx < 0 → (-ins.b_idx - 1).toNat < L)
    (hc : ins.c_idx < 0 → (-ins.c_idx - 1).toNat < L)
    (S : Nat → Int) :
    crt_run_instr t1 t2 inputs1 S ins = crt_run_instr t1 t2 inputs2 S ins := by
  simp only [crt_run_instr]
  rw [instr_read_inputs_agree L inputs1 inputs2 h S ins.b_idx hb,
    instr_read_inputs_agree L inputs1 inputs2 h S ins.c_idx hc,
    instr_read_inputs_agree L inputs1 inputs2 h _ ins.b_idx hb]

/-- Running a whole instruction list cannot distinguish input vectors
    agreeing below `L`. -/
theorem run_foldl_inputs_agree (t1 t2 L : Nat) (inputs1 inputs2 : Nat → Int)
    (h : ∀ i, i < L → inputs1 i = inputs2 i) :
    ∀ (Δ : List CrtInstr) (S : Nat → Int),
    (∀ ins ∈ Δ, (ins.b_idx < 0 → (-ins.b_idx - 1).toNat < L) ∧
      (ins.c_idx < 0 → (-ins.c_idx - 1).toNat < L)) →
    Δ.foldl (crt_run_instr t1 t2 inputs1) S = Δ.foldl (crt_run_instr t1 t2 inputs2) S := by
  intro Δ
  induction Δ with
  | nil => intro S _; rfl
  | cons ins Δ ih =>
    intro S hins
    rw [List.foldl_cons, List.foldl_cons,
      crt_run_instr_inputs_agree t1 t2 L inputs1 inputs2 h ins
        (hins ins (List.mem_cons_self _ _)).1 (hins ins (List.mem_cons_self _ _)).2 S]
    exact ih _ (fun i hi => hins i (List.mem_cons_of_mem _ hi))

/-- The per-instruction safety facts of a successful
    `fmpz_crt_precompute_p`, in both the degenerate and the compiled
    case: program length, root target, temporaries inside the scratch,
    and every instruction's slots strictly below `temp1loc` with input
    operands below `L`. -/
theorem precompute_instr_facts (moduli : List Int)
    (hgood : (fmpz_crt_precompute_p moduli).good = true) :
    (fmpz_crt_precompute_p moduli).prog.length = max 1 (moduli.length - 1) ∧
    ((fmpz_crt_precompute_p moduli).prog.getD
      ((fmpz_crt_precompute_p moduli).prog.length - 1) default).a_idx = 0 ∧
    (fmpz_crt_precompute_p moduli).temp1loc < (fmpz_crt_precompute_p moduli).localsize ∧
    (fmpz_crt_precompute_p moduli).temp2loc < (fmpz_crt_precompute_p moduli).localsize ∧
    (fmpz_crt_precompute_p moduli).temp1loc < (fmpz_crt_precompute_p moduli).temp2loc ∧
    ∀ ins ∈ (fmpz_crt_precompute_p moduli).prog,
      ins.a_idx < (fmpz_crt_precompute_p moduli).temp1loc ∧
      (0 ≤ ins.b_idx → ins.b_idx.toNat < (fmpz_crt_precompute_p moduli).temp1loc) ∧
      (0 ≤ ins.c_idx → ins.c_idx.toNat < (fmpz_crt_precompute_p moduli).temp1loc) ∧
      (ins.b_idx < 0 → (-ins.b_idx - 1).toNat < moduli.length) ∧
      (ins.c_idx < 0 → (-ins.c_idx - 1).toNat < moduli.length) := by
  have hgr : (precompute_raw moduli).good = true := by
    rw [← precompute_good_eq]
    exact hgood
  have hprog : (fmpz_crt_precompute_p moduli).prog = (precompute_raw moduli).prog :=
    precompute_prog_eq_of_good moduli hgr
  have ht1 : (fmpz_crt_precompute_p moduli).temp1loc = (precompute_raw moduli).localsize := by
    show (precompute_cleared moduli).localsize = _
    rw [precompute_cleared_ls]
  have ht2 : (fmpz_crt_precompute_p moduli).temp2loc =
      (precompute_raw moduli).localsize + 1 := by
    show (precompute_cleared moduli).localsize + 1 = _
    rw [precompute_cleared_ls]
  have hls : (fmpz_crt_precompute_p moduli).localsize =
      (precompute_raw moduli).localsize + 2 := by
    show (precompute_cleared moduli).localsize + 2 = _
    rw [precompute_cleared_ls]
  rcases Nat.lt_or_ge 1 moduli.length with h2 | h2
  · have facts := precompute_facts moduli (fun _ => 0) h2 hgood
    have hlen := facts.len_eq
    have hbounds := facts.bounds
    have hnode := facts.node_a
    have h0 : ({ prog := ([] : List CrtInstr), localsize := 1, temp1loc := 0, temp2loc := 0, good := true } : fmpz_crt_struct).prog.length = 0 := rfl
    rw [h0, List.drop_zero] at hbounds
    rw [h0] at hlen
    refine ⟨?_, ?_, ?_, ?_, ?_, ?_⟩
    · rw [hprog, hlen]
      omega
    · rw [hprog]
      exact hnode
    · rw [ht1, hls]
      omega
    · rw [ht2, hls]
      omega
    · rw [ht1, ht2]
      omega
    · intro ins hins
      rw [hprog] at hins
      obtain ⟨hb1, hb2, hb3, hb4, hb5, hb6⟩ := hbounds ins hins
      rw [ht1]
      exact ⟨hb2, fun hb => (hb3 hb).2, fun hc => (hb4 hc).2, hb5, hb6⟩
  · have hlen1 : 1 ≤ moduli.length := by
      by_contra hcon
      have h0 : moduli = [] := List.length_eq_zero.mp (by omega)
      subst h0
      exact absurd hgood (by decide)
    have hraw : precompute_raw moduli =
        { prog := [{ a_idx := 0, b_idx := -1, c_idx := -1, idem := 0, modulus := moduli.getD 0 0 }],
          localsize := 1, temp1loc := 0, temp2loc := 0,
          good := decide (¬ moduli.getD 0 0 = 0) } := by
      unfold precompute_raw
      rw [if_neg (by omega)]
    rw [hraw] at hprog
    have ht1' : (fmpz_crt_precompute_p moduli).temp1loc = 1 := by rw [ht1, hraw]
    have ht2' : (fmpz_crt_precompute_p moduli).temp2loc = 2 := by rw [ht2, hraw]
    have hls' : (fmpz_crt_precompute_p moduli).localsize = 3 := by rw [hls, hraw]
    refine ⟨?_, ?_, ?_, ?_, ?_, ?_⟩
    · rw [hprog]
      show 1 = max 1 (moduli.length - 1)
      omega
    · rw [hprog]
      rfl
    · omega
    · omega
    · omega
    · intro ins hins
      rw [hprog] at hins
      rcases List.mem_singleton.mp hins with rfl
      refine ⟨?_, fun hb => by simp at hb, fun hc => by simp at hc,
        fun _ => ?_, fun _ => ?_⟩
      · show 0 < (fmpz_crt_precompute_p moduli).temp1loc
        omega
      · show ((1 : Int) - 1).toNat < moduli.length
        omega
      · show ((1 : Int) - 1).toNat < moduli.length
        omega

/-- C6: a successful `fmpz_crt_precompute_p` builds exactly
    `max(1, L−1)` instructions; the last one writes slot 0; every slot
    an instruction reads or writes (including the temporaries) is below
    `localsize`; the temporaries differ from every `a_idx`; and
    consequently `_fmpz_crt_run_p` never touches scratch at or above
    `localsize` and never reads inputs at or above `L`. -/
theorem claim_C6_program_safety (moduli : List Int)
    (hgood : (fmpz_crt_precompute_p moduli).good = true) :
    (fmpz_crt_precompute_p moduli).prog.length = max 1 (moduli.length - 1) ∧
    ((fmpz_crt_precompute_p moduli).prog.getD
      ((fmpz_crt_precompute_p moduli).prog.length - 1) default).a_idx = 0 ∧
    (∀ ins ∈ (fmpz_crt_precompute_p moduli).prog,
      ins.a_idx < (fmpz_crt_precompute_p moduli).localsize ∧
      (0 ≤ ins.b_idx → ins.b_idx.toNat < (fmpz_crt_precompute_p moduli).localsize) ∧
      (0 ≤ ins.c_idx → ins.c_idx.toNat < (fmpz_crt_precompute_p moduli).localsize) ∧
      (ins.b_idx < 0 → (-ins.b_idx - 1).toNat < moduli.length) ∧
      (ins.c_idx < 0 → (-ins.c_idx - 1).toNat < moduli.length) ∧
      (fmpz_crt_precompute_p moduli).temp1loc ≠ ins.a_idx ∧
      (fmpz_crt_precompute_p moduli).temp2loc ≠ ins.a_idx) ∧
    (fmpz_crt_precompute_p moduli).temp1loc < (fmpz_crt_precompute_p moduli).localsize ∧
    (fmpz_crt_precompute_p moduli).temp2loc < (fmpz_crt_precompute_p moduli).localsize ∧
    (∀ (inputs S : Nat → Int) (s : Nat), (fmpz_crt_precompute_p moduli).localsize ≤ s →
      fmpz_crt_run_p (fmpz_crt_precompute_p moduli) inputs S s = S s) ∧
    (∀ (inputs S1 S2 : Nat → Int),
      (∀ s, s < (fmpz_crt_precompute_p moduli).localsize → S1 s = S2 s) →
      ∀ s, s < (fmpz_crt_precompute_p moduli).localsize →
        fmpz_crt_run_p (fmpz_crt_precompute_p moduli) inputs S1 s =
        fmpz_crt_run_p (fmpz_crt_precompute_p moduli) inputs S2 s) ∧
    (∀ (inputs1 inputs2 S : Nat → Int),
      (∀ i, i < moduli.length → inputs1 i = inputs2 i) →
      fmpz_crt_run_p (fmpz_crt_precompute_p moduli) inputs1 S =
      fmpz_crt_run_p (fmpz_crt_precompute_p moduli) inputs2 S) := by
  obtain ⟨h1, h2, h3, h4, h5, h6⟩ := precompute_instr_facts moduli hgood
  refine ⟨h1, h2, ?_, by omega, by omega, ?_, ?_, ?_⟩
  · intro ins hins
    obtain ⟨hb1, hb2, hb3, hb4, hb5⟩ := h6 ins hins
    refine ⟨by omega, fun hb => ?_, fun hc => ?_, hb4, hb5, by omega, by omega⟩
    · have := hb2 hb
      omega
    · have := hb3 hc
      omega
  · intro inputs S s hs
    unfold fmpz_crt_run_p
    apply run_foldl_frame
    · intro ins hins
      have := (h6 ins hins).1
      omega
    · omega
    · omega
  · intro inputs S1 S2 hS s hs
    unfold fmpz_crt_run_p
    refine run_foldl_agree (fmpz_crt_precompute_p moduli).temp1loc
      (fmpz_crt_precompute_p moduli).temp2loc (fmpz_crt_precompute_p moduli).localsize
      inputs (fmpz_crt_precompute_p moduli).prog S1 S2 ?_ (by omega) (by omega) hS s hs
    intro ins hins
    refine ⟨fun hb => ?_, fun hc => ?_⟩
    · have := ((h6 ins hins).2.1) hb
      omega
    · have := ((h6 ins hins).2.2.1) hc
      omega
  · intro inputs1 inputs2 S h
    unfold fmpz_crt_run_p
    exact run_foldl_inputs_agree (fmpz_crt_precompute_p moduli).temp1loc
      (fmpz_crt_precompute_p moduli).temp2loc moduli.length inputs1 inputs2 h
      (fmpz_crt_precompute_p moduli).prog S
      (fun ins hins => ⟨(h6 ins hins).2.2.2.1, (h6 ins hins).2.2.2.2⟩)

/-- Witness for C6 at moduli `{5, 7, 9}` (pairwise coprime, so the
    precompute succeeds and builds the 2-instruction tree). -/
theorem claim_C6_program_safety_witness :
    (fmpz_crt_precompute_p [5, 7, 9]).prog.length =
      max 1 (([5, 7, 9] : List Int).length - 1) ∧
    ((fmpz_crt_precompute_p [5, 7, 9]).prog.getD
      ((fmpz_crt_precompute_p [5, 7, 9]).prog.length - 1) default).a_idx = 0 ∧
    (∀ ins ∈ (fmpz_crt_precompute_p [5, 7, 9]).prog,
      ins.a_idx < (fmpz_crt_precompute_p [5, 7, 9]).localsize ∧
      (0 ≤ ins.b_idx → ins.b_idx.toNat < (fmpz_crt_precompute_p [5, 7, 9]).localsize) ∧
      (0 ≤ ins.c_idx → ins.c_idx.toNat < (fmpz_crt_precompute_p [5, 7, 9]).localsize) ∧
      (ins.b_idx < 0 → (-ins.b_idx - 1).toNat < ([5, 7, 9] : List Int).length) ∧
      (ins.c_idx < 0 → (-ins.c_idx - 1).toNat < ([5, 7, 9] : List Int).length) ∧
      (fmpz_crt_precompute_p [5, 7, 9]).temp1loc ≠ ins.a_idx ∧
      (fmpz_crt_precompute_p [5, 7, 9]).temp2loc ≠ ins.a_idx) ∧
    (fmpz_crt_precompute_p [5, 7, 9]).temp1loc <
      (fmpz_crt_precompute_p [5, 7, 9]).localsize ∧
    (fmpz_crt_precompute_p [5, 7, 9]).temp2loc <
      (fmpz_crt_precompute_p [5, 7, 9]).localsize ∧
    (∀ (inputs S : Nat → Int) (s : Nat),
      (fmpz_crt_precompute_p [5, 7, 9]).localsize ≤ s →
      fmpz_crt_run_p (fmpz_crt_precompute_p [5, 7, 9]) inputs S s = S s) ∧
    (∀ (inputs S1 S2 : Nat → Int),
      (∀ s, s < (fmpz_crt_precompute_p [5, 7, 9]).localsize → S1 s = S2 s) →
      ∀ s, s < (fmpz_crt_precompute_p [5, 7, 9]).localsize →
        fmpz_crt_run_p (fmpz_crt_precompute_p [5, 7, 9]) inputs S1 s =
        fmpz_crt_run_p (fmpz_crt_precompute_p [5, 7, 9]) inputs S2 s) ∧
    (∀ (inputs1 inputs2 S : Nat → Int),
      (∀ i, i < ([5, 7, 9] : List Int).length → inputs1 i = inputs2 i) →
      fmpz_crt_run_p (fmpz_crt_precompute_p [5, 7, 9]) inputs1 S =
      fmpz_crt_run_p (fmpz_crt_precompute_p [5, 7, 9]) inputs2 S) :=
  claim_C6_program_safety [5, 7, 9] (by decide)

/-! ### `fmpz_mpoly_crt`: merging `count` canonical polynomials

A polynomial is a list of `(exponent, coefficient)` terms, exponents
strictly decreasing (`mpoly_monomial_cmp_nomask` on the packed monomials
becomes comparison of `Nat` exponents).  `start[k]` is the next unread
term of `B[k]`; `input[k] != zero` (a pointer identity in the source)
becomes the flag `used k`.  The `goto found_max` restart re-enters the
for-loop at the adopting index and never moves backwards, so the whole
do/for/goto structure is one forward pass over `k = 0, …, count−1`,
embedded with fuel `count − k`. -/
def crt_scan (B : Nat → List (Nat × Int)) :
    Nat → Nat → (Nat → Nat) → (Nat → Bool) →
    Option Nat → (Nat → Nat) × (Nat → Bool) × Option Nat
  | 0, _, starts, used, e => (starts, used, e)
  | fuel+1, k, starts, used, e =>
    if starts k < (B k).length then
      match e with
      | none =>
        crt_scan B fuel (k+1) (fun j => if j = k then starts k + 1 else starts j)
          (fun j => if j = k then true else used j)
          (some ((B k).getD (starts k) (0, 0)).1)
      | some ev =>
        if ((B k).getD (starts k) (0, 0)).1 = ev then
          crt_scan B fuel (k+1) (fun j => if j = k then starts k + 1 else starts j)
            (fun j => if j = k then true else used j) (some ev)
        else if ev < ((B k).getD (starts k) (0, 0)).1 then
          crt_scan B fuel (k+1)
            (fun j => if j = k then starts k + 1 else if used j then starts j - 1 else starts j)
            (fun j => if j = k then true else false)
            (some ((B k).getD (starts k) (0, 0)).1)
        else
          crt_scan B fuel (k+1) starts used (some ev)
    else
      crt_scan B fuel (k+1) starts used e

/-- The input vector handed to the CRT runner after a scan: consumed
    positions contribute the term just consumed (`start[k]` was already
    incremented), the rest point at `zero`. -/
def crt_inputs (B : Nat → List (Nat × Int)) (starts : Nat → Nat) (used : Nat → Bool) :
    Nat → Int :=
  fun k => if used k then ((B k).getD (starts k - 1) (0, 0)).2 else 0

/-- The outer `while (1)` of `fmpz_mpoly_crt`, with fuel.  Each pass
    scans for the maximal remaining monomial; if none is left it stops,
    otherwise it runs the CRT program on the gathered coefficients
    (threading the caller's persistent scratch `S`; the source's
    `fmpz_swap` into `A` only disturbs scratch slot 0, which no
    instruction ever reads), appends the term when its coefficient is
    nonzero, and accumulates `Asum`/`Amax` exactly as the source's
    `fmpz_sgn`/`fmpz_cmpabs` branches do.  Returns
    `(terms of A, Asum, Amax)`. -/
def fmpz_mpoly_crt_loop (P : fmpz_crt_struct) (B : Nat → List (Nat × Int)) (count : Nat) :
    Nat → (Nat → Nat) → (Nat → Int) → Int → Int → List (Nat × Int) × Int × Int
  | 0, _, _, Asum, Amax => ([], Asum, Amax)
  | fuel+1, starts, S, Asum, Amax =>
    match crt_scan B count 0 starts (fun _ => false) none with
    | (_, _, none) => ([], Asum, Amax)
    | (starts', used', some e) =>
      let S' := fmpz_crt_run_p P (crt_inputs B starts' used') S
      let r := S' 0
      let Asum' := if 0 < r then Asum + r else Asum - r
      let Amax' := if |Amax| < |r| then |r| else Amax
      let rest := fmpz_mpoly_crt_loop P B count fuel starts' S' Asum' Amax'
      (if r = 0 then rest.1 else (e, r) :: rest.1, rest.2.1, rest.2.2)

/-- `fmpz_mpoly_crt`: all `start[k]` begin at 0 and the scratch is
    freshly `fmpz_init`ed to zeros; the fuel `Σ |B k| + 1` covers every
    pass, since each successful pass consumes at least one term. -/
def fmpz_mpoly_crt (P : fmpz_crt_struct) (Amax Asum : Int)
    (B : Nat → List (Nat × Int)) (count : Nat) : List (Nat × Int) × Int × Int :=
  fmpz_mpoly_crt_loop P B count
    (((List.range count).map (fun k => (B k).length)).sum + 1)
    (fun _ => 0) (fun _ => 0) Asum Amax

/-- Invariant of the merge scan, relative to the pass's initial read
    positions `s0`: positions at or past `k` are untouched; consumed
    positions advanced by one and carried a term whose exponent is the
    current maximum `e`; unconsumed positions below `k` are untouched
    and, when a term is available, it lies strictly below `e`. -/
structure ScanInv (B : Nat → List (Nat × Int)) (s0 : Nat → Nat) (k : Nat)
    (starts : Nat → Nat) (used : Nat → Bool) (e : Option Nat) : Prop where
  upper_u : ∀ j, k ≤ j → used j = false
  upper_s : ∀ j, k ≤ j → starts j = s0 j
  lower_t : ∀ j, j < k → used j = true → starts j = s0 j + 1
  lower_f : ∀ j, j < k → used j = false → starts j = s0 j
  none_u : e = none → ∀ j, used j = false
  none_h : e = none → ∀ j, j < k → ¬ (s0 j < (B j).length)
  some_ex : ∀ ev, e = some ev → ∃ j, j < k ∧ used j = true
  some_t : ∀ ev, e = some ev → ∀ j, j < k → used j = true →
    s0 j < (B j).length ∧ ((B j).getD (s0 j) (0, 0)).1 = ev
  some_f : ∀ ev, e = some ev → ∀ j, j < k → used j = false →
    s0 j < (B j).length → ((B j).getD (s0 j) (0, 0)).1 < ev


/-- Scan step: position `k` has no term left — skip. -/
theorem scanInv_skip (B : Nat → List (Nat × Int)) (s0 : Nat → Nat) (k : Nat)
    (starts : Nat → Nat) (used : Nat → Bool) (e : Option Nat)
    (h : ScanInv B s0 k starts used e) (hav : ¬ starts k < (B k).length) :
    ScanInv B s0 (k + 1) starts used e := by
  have hs0k : starts k = s0 k := h.upper_s k (le_refl k)
  refine ⟨?_, ?_, ?_, ?_, ?_, ?_, ?_, ?_, ?_⟩
  · intro j hj
    exact h.upper_u j (by omega)
  · intro j hj
    exact h.upper_s j (by omega)
  · intro j hj hu
    by_cases hjk : j = k
    · rw [hjk, h.upper_u k (le_refl k)] at hu
      simp at hu
    · exact h.lower_t j (by omega) hu
  · intro j hj hu
    by_cases hjk : j = k
    · subst hjk
      exact hs0k
    · exact h.lower_f j (by omega) hu
  · intro he
    exact h.none_u he
  · intro he j hj
    by_cases hjk : j = k
    · subst hjk
      rw [← hs0k]
      exact hav
    · exact h.none_h he j (by omega)
  · intro ev hev
    obtain ⟨j, hj, hju⟩ := h.some_ex ev hev
    exact ⟨j, by omega, hju⟩
  · intro ev hev j hj hu
    by_cases hjk : j = k
    · rw [hjk, h.upper_u k (le_refl k)] at hu
      simp at hu
    · exact h.some_t ev hev j (by omega) hu
  · intro ev hev j hj hu hava
    by_cases hjk : j = k
    · subst hjk
      rw [← hs0k] at hava
      exact absurd hava hav
    · exact h.some_f ev hev j (by omega) hu hava

/-- Scan step: first available term (`e` still `none`) — adopt it as
    the current maximum and consume it. -/
theorem scanInv_adopt_first (B : Nat → List (Nat × Int)) (s0 : Nat → Nat) (k : Nat)
    (starts : Nat → Nat) (used : Nat → Bool)
    (h : ScanInv B s0 k starts used none) (hav : starts k < (B k).length) :
    ScanInv B s0 (k + 1) (fun j => if j = k then starts k + 1 else starts j)
      (fun j => if j = k then true else used j)
      (some ((B k).getD (starts k) (0, 0)).1) := by
  have hs0k : starts k = s0 k := h.upper_s k (le_refl k)
  have hav0 : s0 k < (B k).length := by rw [← hs0k]; exact hav
  refine ⟨?_, ?_, ?_, ?_, ?_, ?_, ?_, ?_, ?_⟩
  · intro j hj
    rw [if_neg (by omega)]
    exact h.upper_u j (by omega)
  · intro j hj
    rw [if_neg (by omega)]
    exact h.upper_s j (by omega)
  · intro j hj hu
    by_cases hjk : j = k
    · subst hjk
      rw [if_pos rfl, hs0k]
    · rw [if_neg hjk]
      rw [if_neg hjk] at hu
      exact absurd hu (by simp [h.none_u rfl j])
  · intro j hj hu
    by_cases hjk : j = k
    · subst hjk
      rw [if_pos rfl] at hu
      exact absurd hu (by simp)
    · rw [if_neg hjk]
      exact h.lower_f j (by omega) (h.none_u rfl j)
  · intro habs
    exact absurd habs (by simp)
  · intro habs
    exact absurd habs (by simp)
  · intro ev hev
    exact ⟨k, by omega, by rw [if_pos rfl]⟩
  · intro ev hev j hj hu
    injection hev with hev
    by_cases hjk : j = k
    · subst hjk
      refine ⟨hav0, ?_⟩
      rw [← hs0k, hev]
    · rw [if_neg hjk] at hu
      exact absurd hu (by simp [h.none_u rfl j])
  · intro ev hev j hj hu hava
    by_cases hjk : j = k
    · subst hjk
      rw [if_pos rfl] at hu
      exact absurd hu (by simp)
    · exact absurd hava (h.none_h rfl j (by omega))

/-- Scan step: position `k`'s term matches the current maximum —
    consume it too. -/
theorem scanInv_take_eq (B : Nat → List (Nat × Int)) (s0 : Nat → Nat) (k : Nat)
    (starts : Nat → Nat) (used : Nat → Bool) (ev : Nat)
    (h : ScanInv B s0 k starts used (some ev)) (hav : starts k < (B k).length)
    (heq : ((B k).getD (starts k) (0, 0)).1 = ev) :
    ScanInv B s0 (k + 1) (fun j => if j = k then starts k + 1 else starts j)
      (fun j => if j = k then true else used j) (some ev) := by
  have hs0k : starts k = s0 k := h.upper_s k (le_refl k)
  have hav0 : s0 k < (B k).length := by rw [← hs0k]; exact hav
  refine ⟨?_, ?_, ?_, ?_, ?_, ?_, ?_, ?_, ?_⟩
  · intro j hj
    rw [if_neg (by omega)]
    exact h.upper_u j (by omega)
  · intro j hj
    rw [if_neg (by omega)]
    exact h.upper_s j (by omega)
  · intro j hj hu
    by_cases hjk : j = k
    · subst hjk
      rw [if_pos rfl, hs0k]
    · rw [if_neg hjk]
      rw [if_neg hjk] at hu
      exact h.lower_t j (by omega) hu
  · intro j hj hu
    by_cases hjk : j = k
    · subst hjk
      rw [if_pos rfl] at hu
      exact absurd hu (by simp)
    · rw [if_neg hjk]
      rw [if_neg hjk] at hu
      exact h.lower_f j (by omega) hu
  · intro habs
    exact absurd habs (by simp)
  · intro habs
    exact absurd habs (by simp)
  · intro ev' hev'
    exact ⟨k, by omega, by rw [if_pos rfl]⟩
  · intro ev' hev' j hj hu
    injection hev' with hev'
    subst hev'
    by_cases hjk : j = k
    · subst hjk
      refine ⟨hav0, ?_⟩
      rw [← hs0k]
      exact heq
    · rw [if_neg hjk] at hu
      exact h.some_t ev rfl j (by omega) hu
  · intro ev' hev' j hj hu hava
    injection hev' with hev'
    subst hev'
    by_cases hjk : j = k
    · subst hjk
      rw [if_pos rfl] at hu
      exact absurd hu (by simp)
    · rw [if_neg hjk] at hu
      exact h.some_f ev rfl j (by omega) hu hava

/-- Scan step: position `k`'s term beats the current maximum — undo all
    previous consumptions and restart from `k` (the `goto found_max`). -/
theorem scanInv_adopt_gt (B : Nat → List (Nat × Int)) (s0 : Nat → Nat) (k : Nat)
    (starts : Nat → Nat) (used : Nat → Bool) (ev : Nat)
    (h : ScanInv B s0 k starts used (some ev)) (hav : starts k < (B k).length)
    (hgt : ev < ((B k).getD (starts k) (0, 0)).1) :
    ScanInv B s0 (k + 1)
      (fun j => if j = k then starts k + 1 else if used j then starts j - 1 else starts j)
      (fun j => if j = k then true else false)
      (some ((B k).getD (starts k) (0, 0)).1) := by
  have hs0k : starts k = s0 k := h.upper_s k (le_refl k)
  have hav0 : s0 k < (B k).length := by rw [← hs0k]; exact hav
  refine ⟨?_, ?_, ?_, ?_, ?_, ?_, ?_, ?_, ?_⟩
  · intro j hj
    rw [if_neg (by omega)]
  · intro j hj
    rw [if_neg (by omega)]
    have hju := h.upper_u j (by omega)
    rw [hju]
    exact h.upper_s j (by omega)
  · intro j hj hu
    by_cases hjk : j = k
    · subst hjk
      rw [if_pos rfl, hs0k]
    · rw [if_neg hjk] at hu
      exact absurd hu (by simp)
  · intro j hj hu
    by_cases hjk : j = k
    · subst hjk
      rw [if_pos rfl] at hu
      exact absurd hu (by simp)
    · rw [if_neg hjk]
      rcases hju : used j with _ | _
      · rw [if_neg (by simp)]
        exact h.lower_f j (by omega) hju
      · rw [if_pos rfl]
        have := h.lower_t j (by omega) hju
        omega
  · intro habs
    exact absurd habs (by simp)
  · intro habs
    exact absurd habs (by simp)
  · intro ev' hev'
    exact ⟨k, by omega, by rw [if_pos rfl]⟩
  · intro ev' hev' j hj hu
    injection hev' with hev'
    by_cases hjk : j = k
    · subst hjk
      refine ⟨hav0, ?_⟩
      rw [← hs0k, hev']
    · rw [if_neg hjk] at hu
      exact absurd hu (by simp)
  · intro ev' hev' j hj hu hava
    injection hev' with hev'
    subst hev'
    by_cases hjk : j = k
    · subst hjk
      rw [if_pos rfl] at hu
      exact absurd hu (by simp)
    · rcases hju : used j with _ | _
      · have := h.some_f ev rfl j (by omega) hju hava
        omega
      · have := (h.some_t ev rfl j (by omega) hju).2
        omega

/-- Scan step: position `k`'s term is below the current maximum —
    leave it for a later pass. -/
theorem scanInv_skip_lt (B : Nat → List (Nat × Int)) (s0 : Nat → Nat) (k : Nat)
    (starts : Nat → Nat) (used : Nat → Bool) (ev : Nat)
    (h : ScanInv B s0 k starts used (some ev)) (hav : starts k < (B k).length)
    (hne : ¬ ((B k).getD (starts k) (0, 0)).1 = ev)
    (hngt : ¬ ev < ((B k).getD (starts k) (0, 0)).1) :
    ScanInv B s0 (k + 1) starts used (some ev) := by
  have hs0k : starts k = s0 k := h.upper_s k (le_refl k)
  refine ⟨?_, ?_, ?_, ?_, ?_, ?_, ?_, ?_, ?_⟩
  · intro j hj
    exact h.upper_u j (by omega)
  · intro j hj
    exact h.upper_s j (by omega)
  · intro j hj hu
    by_cases hjk : j = k
    · rw [hjk, h.upper_u k (le_refl k)] at hu
      simp at hu
    · exact h.lower_t j (by omega) hu
  · intro j hj hu
    by_cases hjk : j = k
    · subst hjk
      exact hs0k
    · exact h.lower_f j (by omega) hu
  · intro habs
    exact absurd habs (by simp)
  · intro habs
    exact absurd habs (by simp)
  · intro ev' hev'
    injection hev' with hev'
    obtain ⟨j, hj, hju⟩ := h.some_ex ev rfl
    exact ⟨j, by omega, hju⟩
  · intro ev' hev' j hj hu
    injection hev' with hev'
    subst hev'
    by_cases hjk : j = k
    · rw [hjk, h.upper_u k (le_refl k)] at hu
      simp at hu
    · exact h.some_t ev rfl j (by omega) hu
  · intro ev' hev' j hj hu hava
    injection hev' with hev'
    subst hev'
    by_cases hjk : j = k
    · subst hjk
      rw [← hs0k]
      omega
    · exact h.some_f ev rfl j (by omega) hu hava

/-- The scan preserves its invariant, moving the frontier from `k` to
    `k + fuel`. -/
theorem crt_scan_spec (B : Nat → List (Nat × Int)) (s0 : Nat → Nat) :
    ∀ (fuel k : Nat) (starts : Nat → Nat) (used : Nat → Bool) (e : Option Nat),
    ScanInv B s0 k starts used e →
    ScanInv B s0 (k + fuel) (crt_scan B fuel k starts used e).1
      (crt_scan B fuel k starts used e).2.1 (crt_scan B fuel k starts used e).2.2 := by
  intro fuel
  induction fuel with
  | zero => intro k starts used e h; simpa using h
  | succ fuel ih =>
    intro k starts used e h
    have hkk : k + (fuel + 1) = (k + 1) + fuel := by omega
    rw [hkk]
    rcases e with _ | ev
    · simp only [crt_scan]
      by_cases hav : starts k < (B k).length
      · rw [if_pos hav]
        exact ih (k+1) _ _ _ (scanInv_adopt_first B s0 k starts used h hav)
      · rw [if_neg hav]
        exact ih (k+1) _ _ _ (scanInv_skip B s0 k starts used none h hav)
    · simp only [crt_scan]
      by_cases hav : starts k < (B k).length
      · rw [if_pos hav]
        by_cases heq : ((B k).getD (starts k) (0, 0)).1 = ev
        · rw [if_pos heq]
          exact ih (k+1) _ _ _ (scanInv_take_eq B s0 k starts used ev h hav heq)
        · rw [if_neg heq]
          by_cases hgt : ev < ((B k).getD (starts k) (0, 0)).1
          · rw [if_pos hgt]
            exact ih (k+1) _ _ _ (scanInv_adopt_gt B s0 k starts used ev h hav hgt)
          · rw [if_neg hgt]
            exact ih (k+1) _ _ _ (scanInv_skip_lt B s0 k starts used ev h hav heq hgt)
      · rw [if_neg hav]
        exact ih (k+1) _ _ _ (scanInv_skip B s0 k starts used (some ev) h hav)

/-- At the start of a pass nothing is consumed and no maximum chosen. -/
theorem scanInv_init (B : Nat → List (Nat × Int)) (s0 : Nat → Nat) :
    ScanInv B s0 0 s0 (fun _ => false) none := by
  refine ⟨?_, ?_, ?_, ?_, ?_, ?_, ?_, ?_, ?_⟩
  · intro j _
    rfl
  · intro j _
    rfl
  · intro j hj
    exact absurd hj (by omega)
  · intro j hj
    exact absurd hj (by omega)
  · intro _ j
    rfl
  · intro _ j hj
    exact absurd hj (by omega)
  · intro ev hev
    exact Option.noConfusion hev
  · intro ev hev
    exact Option.noConfusion hev
  · intro ev hev
    exact Option.noConfusion hev

theorem range_map_sum_le : ∀ (n : Nat) (f g : Nat → Nat), (∀ k, k < n → f k ≤ g k) →
    ((List.range n).map f).sum ≤ ((List.range n).map g).sum := by
  intro n
  induction n with
  | zero => intro f g _; simp
  | succ n ih =>
    intro f g h
    rw [List.range_succ, List.map_append, List.map_append, List.sum_append, List.sum_append]
    have h1 := ih f g (fun k hk => h k (by omega))
    have h2 := h n (by omega)
    simp only [List.map_cons, List.map_nil, List.sum_cons, List.sum_nil]
    omega

theorem range_map_sum_lt : ∀ (n : Nat) (f g : Nat → Nat), (∀ k, k < n → f k ≤ g k) →
    (∃ k, k < n ∧ f k < g k) →
    ((List.range n).map f).sum < ((List.range n).map g).sum := by
  intro n
  induction n with
  | zero =>
    intro f g _ hex
    obtain ⟨k, hk, _⟩ := hex
    exact absurd hk (by omega)
  | succ n ih =>
    intro f g hle hex
    rw [List.range_succ, List.map_append, List.map_append, List.sum_append, List.sum_append]
    simp only [List.map_cons, List.map_nil, List.sum_cons, List.sum_nil]
    by_cases hw : ∃ k, k < n ∧ f k < g k
    · have h1 := ih f g (fun k hk => hle k (by omega)) hw
      have h2 := hle n (by omega)
      omega
    · obtain ⟨k, hk, hklt⟩ := hex
      have hkn : k = n := by
        by_contra hkn
        exact hw ⟨k, by omega, hklt⟩
      rw [hkn] at hklt
      have h1 := range_map_sum_le n f g (fun k' hk' => hle k' (by omega))
      omega

/-- Strictly decreasing exponents, read through `getD`. -/
theorem pairwise_getD_lt {l : List (Nat × Int)} (hp : l.Pairwise (fun x y => y.1 < x.1))
    {i j : Nat} (hij : i < j) (hj : j < l.length) :
    (l.getD j (0, 0)).1 < (l.getD i (0, 0)).1 := by
  rw [List.getD_eq_getElem l (0, 0) hj, List.getD_eq_getElem l (0, 0) (by omega)]
  have := List.pairwise_iff_get.mp hp ⟨i, by omega⟩ ⟨j, hj⟩ (by simpa using hij)
  simpa using this

/-- Total number of unread terms: the loop's termination measure. -/
def crt_remaining (B : Nat → List (Nat × Int)) (count : Nat) (starts : Nat → Nat) : Nat :=
  ((List.range count).map (fun k => (B k).length - starts k)).sum

/-- All invariants of the outer loop of `fmpz_mpoly_crt`: output
    exponents strictly decreasing and below any bound dominating the
    unread heads, no zero coefficient stored, and `Asum`/`Amax`
    accumulating the absolute values of the computed CRT results. -/
theorem crt_loop_spec (P : fmpz_crt_struct) (B : Nat → List (Nat × Int)) (count : Nat)
    (hsorted : ∀ k, k < count → (B k).Pairwise (fun x y => y.1 < x.1)) :
    ∀ (fuel : Nat) (starts : Nat → Nat) (S : Nat → Int) (Asum Amax : Int),
    crt_remaining B count starts < fuel → 0 ≤ Amax →
    ((fmpz_mpoly_crt_loop P B count fuel starts S Asum Amax).1.Pairwise
      (fun x y => y.1 < x.1)) ∧
    (∀ t ∈ (fmpz_mpoly_crt_loop P B count fuel starts S Asum Amax).1, t.2 ≠ 0) ∧
    (∀ bound : Nat, (∀ k, k < count → starts k < (B k).length →
        ((B k).getD (starts k) (0, 0)).1 < bound) →
      ∀ t ∈ (fmpz_mpoly_crt_loop P B count fuel starts S Asum Amax).1, t.1 < bound) ∧
    (∃ rs : List Int,
      (fmpz_mpoly_crt_loop P B count fuel starts S Asum Amax).2.1 =
        Asum + (rs.map (fun r => |r|)).sum ∧
      (fmpz_mpoly_crt_loop P B count fuel starts S Asum Amax).2.2 =
        rs.foldl (fun m r => max m |r|) Amax) := by
  intro fuel
  induction fuel with
  | zero =>
    intro starts S Asum Amax hfuel _
    exact absurd hfuel (by omega)
  | succ fuel ih =>
    intro starts S Asum Amax hfuel hAmax
    rcases hscan : crt_scan B count 0 starts (fun _ => false) none with ⟨starts', used', e⟩
    rcases e with _ | ev
    · simp only [fmpz_mpoly_crt_loop, hscan]
      exact ⟨List.Pairwise.nil, by simp, by simp, [], by simp, by simp⟩
    · have hinv := crt_scan_spec B starts count 0 starts (fun _ => false) none
        (scanInv_init B starts)
      rw [hscan, Nat.zero_add] at hinv
      have hinv' : ScanInv B starts count starts' used' (some ev) := hinv
      have hex := hinv'.some_ex ev rfl
      have ht := hinv'.some_t ev rfl
      have hf := hinv'.some_f ev rfl
      have hlow_t := hinv'.lower_t
      have hlow_f := hinv'.lower_f
      have hdec : crt_remaining B count starts' < crt_remaining B count starts := by
        obtain ⟨j0, hj0, hj0u⟩ := hex
        refine range_map_sum_lt count _ _ ?_ ⟨j0, hj0, ?_⟩
        · intro k hk
          rcases hku : used' k with _ | _
          · rw [hlow_f k hk hku]
          · rw [hlow_t k hk hku]
            omega
        · rw [hlow_t j0 hj0 hj0u]
          have := (ht j0 hj0 hj0u).1
          omega
      have hfuel' : crt_remaining B count starts' < fuel := by
        have := hfuel
        unfold crt_remaining at *
        omega
      simp only [fmpz_mpoly_crt_loop, hscan]
      set r := fmpz_crt_run_p P (crt_inputs B starts' used') S 0 with hrdef
      set Asum2 := if 0 < r then Asum + r else Asum - r with hAsum2def
      set Amax2 := if |Amax| < |r| then |r| else Amax with hAmax2def
      have hAsum2 : Asum2 = Asum + |r| := by
        rw [hAsum2def]
        rcases lt_or_ge 0 r with hr | hr
        · rw [if_pos hr, abs_of_pos hr]
        · rw [if_neg (by omega), abs_of_nonpos (by omega)]
          ring
      have hAmax2 : Amax2 = max Amax |r| := by
        rw [hAmax2def]
        by_cases hm : |Amax| < |r|
        · rw [if_pos hm]
          rw [abs_of_nonneg hAmax] at hm
          exact (max_eq_right (le_of_lt hm)).symm
        · rw [if_neg hm]
          rw [abs_of_nonneg hAmax] at hm
          exact (max_eq_left (by omega)).symm
      have hAmax2' : 0 ≤ Amax2 := by
        rw [hAmax2]
        exact le_trans hAmax (le_max_left _ _)
      obtain ⟨ihp, ihz, ihb, rs, ihs, ihm⟩ :=
        ih starts' (fmpz_crt_run_p P (crt_inputs B starts' used') S) Asum2 Amax2 hfuel' hAmax2'
      have hheads : ∀ k, k < count → starts' k < (B k).length →
          ((B k).getD (starts' k) (0, 0)).1 < ev := by
        intro k hk hav'
        rcases hku : used' k with _ | _
        · have hseq := hlow_f k hk hku
          rw [hseq] at hav' ⊢
          exact hf k hk hku hav'
        · have hseq := hlow_t k hk hku
          obtain ⟨havk, hevk⟩ := ht k hk hku
          rw [hseq] at hav' ⊢
          have hlt := pairwise_getD_lt (hsorted k hk) (Nat.lt_succ_self (starts k)) hav'
          rw [← hevk]
          exact hlt
      refine ⟨?_, ?_, ?_, r :: rs, ?_, ?_⟩
      · by_cases hr0 : r = 0
        · rw [if_pos hr0]
          exact ihp
        · rw [if_neg hr0]
          exact List.Pairwise.cons (fun t ht' => ihb ev hheads t ht') ihp
      · intro t ht'
        by_cases hr0 : r = 0
        · rw [if_pos hr0] at ht'
          exact ihz t ht'
        · rw [if_neg hr0] at ht'
          rcases List.mem_cons.mp ht' with rfl | hmem
          · exact hr0
          · exact ihz t hmem
      · intro bound hb t ht'
        have hev_bound : ev < bound := by
          obtain ⟨j0, hj0, hj0u⟩ := hex
          have h1 := hb j0 hj0 (ht j0 hj0 hj0u).1
          rw [(ht j0 hj0 hj0u).2] at h1
          exact h1
        by_cases hr0 : r = 0
        · rw [if_pos hr0] at ht'
          exact ihb bound (fun k hk hav' => lt_trans (hheads k hk hav') hev_bound) t ht'
        · rw [if_neg hr0] at ht'
          rcases List.mem_cons.mp ht' with rfl | hmem
          · exact hev_bound
          · exact ihb bound (fun k hk hav' => lt_trans (hheads k hk hav') hev_bound) t hmem
      · show (fmpz_mpoly_crt_loop P B count fuel starts'
            (fmpz_crt_run_p P (crt_inputs B starts' used') S) Asum2 Amax2).2.1 =
          Asum + ((r :: rs).map (fun x => |x|)).sum
        rw [ihs, hAsum2]
        simp only [List.map_cons, List.sum_cons]
        ring
      · show (fmpz_mpoly_crt_loop P B count fuel starts'
            (fmpz_crt_run_p P (crt_inputs B starts' used') S) Asum2 Amax2).2.2 =
          (r :: rs).foldl (fun m x => max m |x|) Amax
        rw [ihm, hAmax2]
        rfl

/-- C4: for a compiled CRT program and canonical inputs (strictly
    decreasing exponents), `fmpz_mpoly_crt` outputs terms with strictly
    decreasing exponents and no zero coefficients (the write position
    advances only on a nonzero CRT result), and updates `Asum` by adding
    `|r|` and `Amax` to `max(Amax, |r|)` over the computed results `r`. -/
theorem claim_C4_mpoly_crt (P : fmpz_crt_struct) (Amax Asum : Int)
    (B : Nat → List (Nat × Int)) (count : Nat)
    (hgood : P.good = true)
    (hsorted : ∀ k, k < count → (B k).Pairwise (fun x y => y.1 < x.1))
    (hAmax : 0 ≤ Amax) :
    ((fmpz_mpoly_crt P Amax Asum B count).1.Pairwise (fun x y => y.1 < x.1)) ∧
    (∀ t ∈ (fmpz_mpoly_crt P Amax Asum B count).1, t.2 ≠ 0) ∧
    (∃ rs : List Int,
      (fmpz_mpoly_crt P Amax Asum B count).2.1 =
        Asum + (rs.map (fun r => |r|)).sum ∧
      (fmpz_mpoly_crt P Amax Asum B count).2.2 =
        rs.foldl (fun m r => max m |r|) Amax) := by
  have hrem : crt_remaining B count (fun _ => 0) =
      ((List.range count).map (fun k => (B k).length)).sum := by
    unfold crt_remaining
    simp
  have h := crt_loop_spec P B count hsorted
    (((List.range count).map (fun k => (B k).length)).sum + 1)
    (fun _ => 0) (fun _ => 0) Asum Amax (by omega) hAmax
  unfold fmpz_mpoly_crt
  exact ⟨h.1, h.2.1, h.2.2.2⟩

/-- Witness for C4: moduli `{3, 5}`, merging `x³+2x+1` (coefficients
    mod 3) with `2x³+5x²` (mod 5); the monomial `x²` yields CRT result
    0 and is dropped, the output is `7x³+5x−5` with `Asum = 17`,
    `Amax = 7`. -/
theorem claim_C4_mpoly_crt_witness :
    ((fmpz_mpoly_crt (fmpz_crt_precompute_p [3, 5]) 0 0
        (fun k => if k = 0 then [(3, 1), (1, 2), (0, 1)] else [(3, 2), (2, 5)])
        2).1.Pairwise (fun x y => y.1 < x.1)) ∧
    (∀ t ∈ (fmpz_mpoly_crt (fmpz_crt_precompute_p [3, 5]) 0 0
        (fun k => if k = 0 then [(3, 1), (1, 2), (0, 1)] else [(3, 2), (2, 5)])
        2).1, t.2 ≠ 0) ∧
    (∃ rs : List Int,
      (fmpz_mpoly_crt (fmpz_crt_precompute_p [3, 5]) 0 0
        (fun k => if k = 0 then [(3, 1), (1, 2), (0, 1)] else [(3, 2), (2, 5)])
        2).2.1 = 0 + (rs.map (fun r => |r|)).sum ∧
      (fmpz_mpoly_crt (fmpz_crt_precompute_p [3, 5]) 0 0
        (fun k => if k = 0 then [(3, 1), (1, 2), (0, 1)] else [(3, 2), (2, 5)])
        2).2.2 = rs.foldl (fun m r => max m |r|) 0) :=
  claim_C4_mpoly_crt (fmpz_crt_precompute_p [3, 5]) 0 0
    (fun k => if k = 0 then [(3, 1), (1, 2), (0, 1)] else [(3, 2), (2, 5)]) 2
    (by decide)
    (by
      intro k hk
      interval_cases k <;> decide)
    (by decide)
